import Mathlib

/-!
# Verification of the Repo_Metrics_AI analytics core

Shallow embedding, in Lean 4, of the pure metric/trend computation core of the
repository (`analytics/metrics.py`, `analytics/scoring.py`, `analytics/trends.py`),
together with proofs settling the frozen claims about it.

Modelling conventions, fixed once and used throughout:

* Python `float` arithmetic is idealised as exact rational arithmetic (`ℚ`).
  `round(x, n)` and `f"{x:.nf}"` round a float to `n` decimal places with
  round-half-to-even; on the idealised rationals this is `pyRound` below.
* Python `int` is `ℤ` (or `ℕ` for counts that are provably non-negative).
* Heterogeneous JSON-like inputs (`dict[str, Any]` records) are values of the
  inductive type `PVal`.  Python `dict`s are association lists with unique keys
  in insertion order; lookups take the first (hence only) match.
* `datetime` objects are `PDt`: the wall-clock value as seconds (`sec`, at
  Python's microsecond granularity and finer) plus an optional UTC offset
  (`off`; `Option.none` models a naive datetime).  Comparison and subtraction of
  aware datetimes use the instant `sec - off`; mixing naive and aware raises
  `TypeError`, which the embedding models with `Except`.
* A calendar day is its day number (an integer); `strftime("%Y-%m-%d")` is a
  bijection between representable days and their key strings, so bucketing by
  the formatted key is modelled as bucketing by the day number.
* Fallible Python code is embedded in `Except String`, the error string naming
  the exception class Python would raise.  `datetime.now()` is threaded through
  as an explicit `now : PDt` parameter (Python's `now()` is naive).
* `datetime.fromisoformat` / `strptime` are standard-library primitives, not
  repository code; they are modelled by a concrete parser for the ISO-8601
  profile `YYYY-MM-DD[(T| )HH[:MM[:SS[.f{1..6}]]]][±HH:MM[:SS]]` (after the
  source's `'Z' → '+00:00'` replacement) and, for the `strptime` fallbacks, the
  same fields with 1-2 digit month/day/time components.  Strings outside this
  profile fall back to `now`, exactly as unparseable strings do in the source.
-/

set_option allowUnsafeReducibility true
set_option maxHeartbeats 1000000
set_option maxRecDepth 4000

-- The Batteries rational operations are `@[irreducible]`, which blocks the
-- `decide`-based evaluation of the embedded computations on concrete inputs;
-- kernel soundness is unaffected by reducibility attributes.
attribute [local semireducible] Rat.add Rat.sub Rat.mul Rat.div Rat.inv Rat.neg
  Rat.ofScientific

deriving instance DecidableEq for Except

/-- Round-half-to-even on exact rationals: the rounding used by Python's
`round` builtin and by fixed-point float formatting. -/
def roundHalfEven (q : ℚ) : ℤ :=
  if q - ⌊q⌋ < 1/2 then ⌊q⌋
  else if 1/2 < q - ⌊q⌋ then ⌊q⌋ + 1
  else if 2 ∣ ⌊q⌋ then ⌊q⌋ else ⌊q⌋ + 1

/-- Python's `round(q, nd)` on the idealised rationals. -/
def pyRound (q : ℚ) (nd : ℕ) : ℚ :=
  (roundHalfEven (q * 10 ^ nd) : ℚ) / 10 ^ nd

theorem roundHalfEven_ge_floor (q : ℚ) : ⌊q⌋ ≤ roundHalfEven q := by
  unfold roundHalfEven
  split
  · exact le_refl _
  · split
    · omega
    · split <;> omega

theorem roundHalfEven_le_floor_add_one (q : ℚ) : roundHalfEven q ≤ ⌊q⌋ + 1 := by
  unfold roundHalfEven
  split
  · omega
  · split
    · omega
    · split <;> omega

theorem roundHalfEven_mono {q r : ℚ} (h : q ≤ r) :
    roundHalfEven q ≤ roundHalfEven r := by
  have hf : ⌊q⌋ ≤ ⌊r⌋ := Int.floor_le_floor h
  by_cases c1 : q - (⌊q⌋ : ℚ) < 1/2
  · have hq : roundHalfEven q = ⌊q⌋ := by unfold roundHalfEven; rw [if_pos c1]
    have := roundHalfEven_ge_floor r
    omega
  · by_cases c2 : 1/2 < r - (⌊r⌋ : ℚ)
    · have c2' : ¬(r - (⌊r⌋ : ℚ) < 1/2) := by linarith
      have hr : roundHalfEven r = ⌊r⌋ + 1 := by
        unfold roundHalfEven; rw [if_neg c2', if_pos c2]
      have := roundHalfEven_le_floor_add_one q
      omega
    · push_neg at c1 c2
      rcases lt_or_eq_of_le hf with hlt | heq
      · have h1 := roundHalfEven_le_floor_add_one q
        have h2 := roundHalfEven_ge_floor r
        omega
      · have h2 : r - (⌊q⌋ : ℚ) ≤ 1/2 := by rw [heq]; exact c2
        have h3 : q = r := by
          have : q - (⌊q⌋ : ℚ) = 1/2 := le_antisymm (by linarith) c1
          linarith
        rw [h3]

theorem roundHalfEven_le (q : ℚ) : (roundHalfEven q : ℚ) ≤ q + 1/2 := by
  unfold roundHalfEven
  have h1 : (⌊q⌋ : ℚ) ≤ q := Int.floor_le q
  split
  · linarith
  · rename_i h2
    push_neg at h2
    split
    · push_cast; linarith
    · split
      · push_cast; linarith
      · push_cast; linarith

theorem roundHalfEven_ge (q : ℚ) : q - 1/2 ≤ (roundHalfEven q : ℚ) := by
  unfold roundHalfEven
  have h1 : q < ⌊q⌋ + 1 := Int.lt_floor_add_one q
  split
  · rename_i h2; linarith
  · split
    · push_cast; linarith
    · split
      · push_cast; linarith
      · push_cast; linarith

theorem pyRound_mono {q r : ℚ} (nd : ℕ) (h : q ≤ r) : pyRound q nd ≤ pyRound r nd := by
  unfold pyRound
  have hp : (0 : ℚ) < 10 ^ nd := by positivity
  have := roundHalfEven_mono (mul_le_mul_of_nonneg_right h (le_of_lt hp))
  exact div_le_div_of_nonneg_right (by exact_mod_cast this) hp.le

theorem pyRound_nonneg {q : ℚ} (nd : ℕ) (h : 0 ≤ q) : 0 ≤ pyRound q nd := by
  unfold pyRound
  have hp : (0 : ℚ) < 10 ^ nd := by positivity
  have h0 : (0 : ℤ) ≤ ⌊q * 10 ^ nd⌋ := by
    have : (0 : ℚ) ≤ q * 10 ^ nd := by positivity
    exact Int.floor_nonneg.mpr this
  have := le_trans h0 (roundHalfEven_ge_floor (q * 10 ^ nd))
  positivity

/-- `pyRound` of a value at most an integer bound `B` stays at most `B`. -/
theorem pyRound_le_int {q : ℚ} (nd : ℕ) (B : ℤ) (h : q ≤ (B : ℚ)) :
    pyRound q nd ≤ (B : ℚ) := by
  unfold pyRound
  have hp : (0 : ℚ) < 10 ^ nd := by positivity
  have h1 : (roundHalfEven (q * 10 ^ nd) : ℚ) ≤ q * 10 ^ nd + 1/2 :=
    roundHalfEven_le _
  have h2 : q * 10 ^ nd ≤ (B : ℚ) * 10 ^ nd :=
    mul_le_mul_of_nonneg_right h hp.le
  have hZ : roundHalfEven (q * 10 ^ nd) ≤ B * 10 ^ nd := by
    by_contra hc
    push_neg at hc
    have hc' : ((B * 10 ^ nd + 1 : ℤ) : ℚ) ≤ (roundHalfEven (q * 10 ^ nd) : ℚ) := by
      exact_mod_cast hc
    push_cast at hc'
    linarith
  rw [div_le_iff₀ hp]
  calc (roundHalfEven (q * 10 ^ nd) : ℚ) ≤ ((B * 10 ^ nd : ℤ) : ℚ) := by exact_mod_cast hZ
    _ = (B : ℚ) * 10 ^ nd := by push_cast; ring

/-- Source: `metrics._normalize_score` (also the "Normalizer" of the spec).
Clamps `(value - min_val) / (max_val - min_val)` to `[0,1]`, optionally
inverts, scales to 100 and rounds to 2 decimals; returns the neutral 50 when
`max_val == min_val`.  The Python default `inverse=False` is passed explicitly
by the embedded callers. -/
def normalize_score (value min_val max_val : ℚ) (inverse : Bool) : ℚ :=
  if max_val = min_val then 50
  else
    let normalized := (value - min_val) / (max_val - min_val)
    let normalized := max 0 (min 1 normalized)
    let normalized := if inverse then 1 - normalized else normalized
    pyRound (normalized * 100) 2

theorem normalize_score_range (value min_val max_val : ℚ) (inverse : Bool) :
    0 ≤ normalize_score value min_val max_val inverse ∧
      normalize_score value min_val max_val inverse ≤ 100 := by
  unfold normalize_score
  split
  · norm_num
  · have ha : (0 : ℚ) ≤ max 0 (min 1 ((value - min_val) / (max_val - min_val))) :=
      le_max_left _ _
    have hb : max 0 (min 1 ((value - min_val) / (max_val - min_val))) ≤ 1 :=
      max_le (by norm_num) (min_le_left _ _)
    constructor
    · apply pyRound_nonneg
      split <;> nlinarith
    · have h100 : ((100 : ℤ) : ℚ) = (100 : ℚ) := by norm_num
      rw [← h100]
      apply pyRound_le_int
      rw [h100]
      split <;> nlinarith

/-! ## Python values and datetimes -/

/-- A Python `datetime`: wall-clock value in seconds (`sec`, exact), and the
UTC offset in seconds for aware datetimes (`off = Option.none` models naive). -/
structure PDt where
  sec : ℚ
  off : Option ℚ
deriving DecidableEq, Repr

/-- The instant an aware datetime denotes (for naive, the wall-clock value);
this is the quantity `datetime` comparison and subtraction use. -/
def PDt.instant (d : PDt) : ℚ := d.sec - d.off.getD 0

/-- The calendar day (as a day number, epoch 1970-01-01 = day 0) of a
datetime's wall-clock value: `datetime.date()` / `strftime("%Y-%m-%d")`. -/
def PDt.wallDay (d : PDt) : ℤ := ⌊d.sec / 86400⌋

def PDt.aware (d : PDt) : Bool := d.off.isSome

/-- `a - b` on datetimes, in total seconds (`timedelta.total_seconds()`).
Subtracting a naive from an aware datetime (or vice versa) raises `TypeError`. -/
def pdSub (a b : PDt) : Except String ℚ :=
  if a.aware = b.aware then .ok (a.instant - b.instant) else .error "TypeError"

/-- `timedelta.days` of a duration of `s` seconds: floor division by 86400. -/
def tdDays (s : ℚ) : ℤ := ⌊s / 86400⌋

/-- All datetimes in the list are mutually comparable (all naive or all
aware).  A Python list mixing the two always raises `TypeError` when sorted
or passed to `min`/`max`, because adjacent elements get compared. -/
def uniformAware (l : List PDt) : Bool :=
  match l with
  | [] => true
  | d :: t => t.all (fun x => x.aware = d.aware)

/-- Stable insertion of `x` into a list sorted by `PDt.instant`: `x` goes in
front of the first element not strictly below it, so existing ties keep their
order and `x` lands after earlier-inserted equals. -/
def insortInstant (x : PDt) : List PDt → List PDt
  | [] => [x]
  | y :: ys => if y.instant < x.instant then y :: insortInstant x ys else x :: y :: ys

/-- Stable sort by `PDt.instant`.  Python's `list.sort` (Timsort) is stable and
compares datetimes by instant, so on comparable inputs it computes exactly the
stable-by-instant reordering this function computes. -/
def stableSortInstant : List PDt → List PDt
  | [] => []
  | x :: xs => insortInstant x (stableSortInstant xs)

/-- `dates.sort()`: stable sort, raising `TypeError` on naive/aware mixes. -/
def pySortDates (l : List PDt) : Except String (List PDt) :=
  if uniformAware l then .ok (stableSortInstant l) else .error "TypeError"

/-- Python `min` over a list of datetimes: the first minimal element;
raises on the empty list and on naive/aware mixes. -/
def pyMinDates (l : List PDt) : Except String PDt :=
  match l with
  | [] => .error "ValueError"
  | d :: t =>
    if uniformAware (d :: t) then
      .ok (t.foldl (fun acc x => if x.instant < acc.instant then x else acc) d)
    else .error "TypeError"

/-- Python `max` over a list of datetimes: the first maximal element. -/
def pyMaxDates (l : List PDt) : Except String PDt :=
  match l with
  | [] => .error "ValueError"
  | d :: t =>
    if uniformAware (d :: t) then
      .ok (t.foldl (fun acc x => if acc.instant < x.instant then x else acc) d)
    else .error "TypeError"

/-- Python values, as the analytics core can observe them: the JSON-ish
payloads from the GitHub client plus datetime objects. Dicts are association
lists in insertion order with unique keys. -/
inductive PVal where
  | none
  | bool (b : Bool)
  | int (n : ℤ)
  | float (q : ℚ)
  | str (s : String)
  | dt (d : PDt)
  | list (xs : List PVal)
  | dict (fs : List (String × PVal))

/-- First-match lookup: on unique-key association lists this is Python dict
access. -/
def dlookup (fs : List (String × PVal)) (k : String) : Option PVal :=
  match fs with
  | [] => Option.none
  | p :: t => if p.1 = k then some p.2 else dlookup t k

/-- `d.get(k, dflt)`. -/
def dgetD (fs : List (String × PVal)) (k : String) (dflt : PVal) : PVal :=
  (dlookup fs k).getD dflt

/-- `k in d`. -/
def dmem (fs : List (String × PVal)) (k : String) : Bool :=
  (dlookup fs k).isSome

/-- Python truthiness (`bool(v)`). -/
def truthy : PVal → Bool
  | .none => false
  | .bool b => b
  | .int n => n != 0
  | .float q => q != 0
  | .str s => s ≠ ""
  | .dt _ => true
  | .list xs => ¬xs.isEmpty
  | .dict fs => ¬fs.isEmpty

/-- `v is not None`. -/
def isNotNone : PVal → Bool
  | .none => false
  | _ => true

/-- `v.lower()`: defined for strings only; any other value lacks the
attribute and raises `AttributeError`.  Lean's `Char.toLower` lowercases
ASCII; Python also lowercases non-ASCII letters (out of scope — the fixed
comparison strings involved, `"closed"`/`"open"` and the extension and test
patterns, are ASCII). -/
def asLowerStr : PVal → Except String String
  | .str s => .ok (String.mk (s.data.map Char.toLower))
  | _ => .error "AttributeError"

/-! ## The datetime parser (`_parse_datetime` and its stdlib primitives) -/

/-- Read exactly `n` decimal digits, most significant first, onto `acc`. -/
def takeDigitsAux : ℕ → ℕ → List Char → Option (ℕ × List Char)
  | acc, 0, cs => some (acc, cs)
  | _, _ + 1, [] => Option.none
  | acc, n + 1, c :: t =>
    if c.isDigit then takeDigitsAux (acc * 10 + (c.toNat - 48)) n t else Option.none

def digitsN (n : ℕ) (cs : List Char) : Option (ℕ × List Char) :=
  takeDigitsAux 0 n cs

/-- Read one or two decimal digits, greedily (the `\d{1,2}` of `strptime`'s
`%m`/`%d`/`%H`/`%M`/`%S`). -/
def takeUpTo2Digits : List Char → Option (ℕ × List Char)
  | [] => Option.none
  | c :: t =>
    if c.isDigit then
      match t with
      | c2 :: t2 =>
        if c2.isDigit then some ((c.toNat - 48) * 10 + (c2.toNat - 48), t2)
        else some (c.toNat - 48, t)
      | [] => some (c.toNat - 48, [])
    else Option.none

def expectChar (c : Char) : List Char → Option (List Char)
  | [] => Option.none
  | x :: t => if x = c then some t else Option.none

def digitsVal (l : List Char) : ℕ :=
  l.foldl (fun a c => a * 10 + (c.toNat - 48)) 0

/-- Fractional seconds: 1 to 6 digits after the decimal point. -/
def parseFracDigits (cs : List Char) : Option (ℚ × List Char) :=
  let ds := cs.takeWhile Char.isDigit
  let rest := cs.dropWhile Char.isDigit
  if ds.length = 0 ∨ 6 < ds.length then Option.none
  else some ((digitsVal ds : ℚ) / 10 ^ ds.length, rest)

def isLeap (y : ℤ) : Bool :=
  (y % 4 == 0 && y % 100 != 0) || y % 400 == 0

def daysInMonth (y m : ℤ) : ℤ :=
  if m = 2 then (if isLeap y then 29 else 28)
  else if m = 4 ∨ m = 6 ∨ m = 9 ∨ m = 11 then 30 else 31

/-- Day number (epoch 1970-01-01 = 0) of a proleptic-Gregorian civil date
(the standard days-from-civil computation).  All divisions below act on
non-negative operands for the representable year range 1..9999, where integer
division agrees with floor division. -/
def daysFromCivil (y m d : ℤ) : ℤ :=
  let yy := if m ≤ 2 then y - 1 else y
  let era := yy / 400
  let yoe := yy - era * 400
  let mp := (m + 9) % 12
  let doy := (153 * mp + 2) / 5 + d - 1
  let doe := yoe * 365 + yoe / 4 - yoe / 100 + doy
  era * 146097 + doe - 719468

/-- UTC-offset tail `HH:MM[:SS]` (after the sign), consuming all input;
the offset magnitude Python accepts is below 24 hours. -/
def parseOffsetAmount (cs : List Char) : Option ℚ := do
  let (oh, r1) ← digitsN 2 cs
  if 23 < oh then failure
  let r2 ← expectChar ':' r1
  let (om, r3) ← digitsN 2 r2
  if 59 < om then failure
  match r3 with
  | [] => pure ((oh : ℚ) * 3600 + om * 60)
  | ':' :: r4 => do
    let (os, r5) ← digitsN 2 r4
    if 59 < os then failure
    if r5.isEmpty then pure ((oh : ℚ) * 3600 + om * 60 + os) else failure
  | _ => failure

/-- Finish a time string: either end of input (naive) or a signed offset. -/
def finishOffsetTail (t : ℚ) (cs : List Char) : Option (ℚ × Option ℚ) :=
  match cs with
  | [] => some (t, Option.none)
  | c :: r =>
    if c = '+' then (parseOffsetAmount r).map (fun o => (t, some o))
    else if c = '-' then (parseOffsetAmount r).map (fun o => (t, some (-o)))
    else Option.none

/-- Time-of-day tail `HH[:MM[:SS[.f{1..6}]]]` with optional UTC offset,
consuming all input.  Returns seconds within the day and the offset. -/
def parseTimeTail (cs : List Char) : Option (ℚ × Option ℚ) := do
  let (h, r1) ← digitsN 2 cs
  if 23 < h then failure
  match r1 with
  | ':' :: r2 => do
    let (mi, r3) ← digitsN 2 r2
    if 59 < mi then failure
    match r3 with
    | ':' :: r4 => do
      let (s, r5) ← digitsN 2 r4
      if 59 < s then failure
      match r5 with
      | '.' :: r6 => do
        let (f, r7) ← parseFracDigits r6
        finishOffsetTail ((h : ℚ) * 3600 + mi * 60 + s + f) r7
      | _ => finishOffsetTail ((h : ℚ) * 3600 + mi * 60 + s) r5
    | _ => finishOffsetTail ((h : ℚ) * 3600 + mi * 60) r3
  | _ => finishOffsetTail ((h : ℚ) * 3600) r1

/-- `datetime.fromisoformat`, on the ISO-8601 profile named in the module
header: `YYYY-MM-DD`, optionally followed by a `'T'`/`' '` separator and a
time with optional fractional seconds and optional `±HH:MM[:SS]` offset. -/
def parseIsoChars (cs : List Char) : Option PDt := do
  let (y, r1) ← digitsN 4 cs
  let r2 ← expectChar '-' r1
  let (mo, r3) ← digitsN 2 r2
  let r4 ← expectChar '-' r3
  let (dy, r5) ← digitsN 2 r4
  if y < 1 then failure
  if mo < 1 ∨ 12 < mo then failure
  if dy < 1 ∨ daysInMonth y mo < (dy : ℤ) then failure
  let daySec : ℚ := (daysFromCivil y mo dy : ℚ) * 86400
  match r5 with
  | [] => pure ⟨daySec, Option.none⟩
  | c :: r6 =>
    if c = 'T' ∨ c = ' ' then do
      let (t, off) ← parseTimeTail r6
      pure ⟨daySec + t, off⟩
    else failure

/-- `datetime.strptime(s, "%Y-%m-%dT%H:%M:%S")`: like the ISO profile but
with 1-2 digit month/day/time fields, no fraction, no offset; naive result. -/
def strpDatetimeT (cs : List Char) : Option PDt := do
  let (y, r1) ← digitsN 4 cs
  let r2 ← expectChar '-' r1
  let (mo, r3) ← takeUpTo2Digits r2
  let r4 ← expectChar '-' r3
  let (dy, r5) ← takeUpTo2Digits r4
  let r6 ← expectChar 'T' r5
  let (h, r7) ← takeUpTo2Digits r6
  let r8 ← expectChar ':' r7
  let (mi, r9) ← takeUpTo2Digits r8
  let r10 ← expectChar ':' r9
  let (s, r11) ← takeUpTo2Digits r10
  if ¬r11.isEmpty then failure
  if y < 1 then failure
  if mo < 1 ∨ 12 < mo then failure
  if dy < 1 ∨ daysInMonth y mo < (dy : ℤ) then failure
  if 23 < h ∨ 59 < mi ∨ 59 < s then failure
  pure ⟨(daysFromCivil y mo dy : ℚ) * 86400 + (h : ℚ) * 3600 + mi * 60 + s, Option.none⟩

/-- `datetime.strptime(s, "%Y-%m-%d")`. -/
def strpDate (cs : List Char) : Option PDt := do
  let (y, r1) ← digitsN 4 cs
  let r2 ← expectChar '-' r1
  let (mo, r3) ← takeUpTo2Digits r2
  let r4 ← expectChar '-' r3
  let (dy, r5) ← takeUpTo2Digits r4
  if ¬r5.isEmpty then failure
  if y < 1 then failure
  if mo < 1 ∨ 12 < mo then failure
  if dy < 1 ∨ daysInMonth y mo < (dy : ℤ) then failure
  pure ⟨(daysFromCivil y mo dy : ℚ) * 86400, Option.none⟩

/-- `date_str.replace('Z', '+00:00')` at character level (the pattern is a
single character, so string replace is exactly this char-wise expansion). -/
def replaceZ : List Char → List Char
  | [] => []
  | c :: t =>
    if c = 'Z' then '+' :: '0' :: '0' :: ':' :: '0' :: '0' :: replaceZ t
    else c :: replaceZ t

/-- Source: `_parse_datetime` (identical in `metrics.py` and `trends.py`).
Accepts a datetime unchanged; on a string, replaces `'Z'`, tries
`fromisoformat`, then the two `strptime` formats on the prefix before the
first `'+'`, and finally falls back to `datetime.now()` (the naive `now`
parameter).  Any other value has no `.replace` attribute: `AttributeError`. -/
def parse_datetime (now : PDt) (v : PVal) : Except String PDt :=
  match v with
  | .dt d => .ok d
  | .str s =>
    let cs := replaceZ s.data
    match parseIsoChars cs with
    | some d => .ok d
    | Option.none =>
      match strpDatetimeT (cs.takeWhile (· ≠ '+')) with
      | some d => .ok d
      | Option.none =>
        match strpDate (cs.takeWhile (· ≠ '+')) with
        | some d => .ok d
        | Option.none => .ok now
  | _ => .error "AttributeError"

/-! ## Metric computers (`analytics/metrics.py`) -/

/-- The timestamp-extraction step of `compute_commit_frequency` (and of
`compute_commit_trend`, which repeats it verbatim): per commit record, the
value under `commit.author.date` when `'commit'` maps to a dict (where a
non-dict `author` value has no `.get` and raises `AttributeError`), else the
`'date'` value, else the `'created_at'` value, else `None` (also for non-dict
records). -/
def extractCommitDate (c : PVal) : Except String PVal :=
  match c with
  | .dict fs =>
    match dlookup fs "commit" with
    | some (.dict inner) =>
      match dgetD inner "author" (.dict []) with
      | .dict afs => .ok (dgetD afs "date" .none)
      | _ => .error "AttributeError"
    | _ =>
      if dmem fs "date" then .ok (dgetD fs "date" .none)
      else if dmem fs "created_at" then .ok (dgetD fs "created_at" .none)
      else .ok .none
  | _ => .ok .none

/-- One iteration of the date-collection loop: extract, and parse when the
extracted value is truthy. -/
def commitRecordDate (now : PDt) (c : PVal) : Except String (Option PDt) :=
  match extractCommitDate c with
  | .error e => .error e
  | .ok dv =>
    if truthy dv then
      match parse_datetime now dv with
      | .error e => .error e
      | .ok d => .ok (some d)
    else .ok Option.none

/-- The `dates` list accumulated by the extraction loop, stopping at the
first record that raises. -/
def collectDates (now : PDt) : List PVal → Except String (List PDt)
  | [] => .ok []
  | c :: t =>
    match commitRecordDate now c with
    | .error e => .error e
    | .ok d? =>
      match collectDates now t with
      | .error e => .error e
      | .ok rest => .ok (match d? with | some d => d :: rest | Option.none => rest)

/-- Result dict of `compute_commit_frequency`; `time_span_days` is present
only on the fully-computed branch. -/
structure CFResult where
  raw : ℚ
  score : ℚ
  total_commits : ℕ
  time_span_days : Option ℤ
deriving DecidableEq, Repr

/-- A dummy datetime for `List.headD`/`List.getLastD` at spots where the
source indexes a list that is provably non-empty (`dates[0]`, `dates[-1]`
after the `len(dates) < 2` guard). -/
def dummyDt : PDt := ⟨0, Option.none⟩

/-- Source: `metrics.compute_commit_frequency`. -/
def compute_commit_frequency (now : PDt) (commits : List PVal) :
    Except String CFResult :=
  if commits.isEmpty then .ok ⟨0, 0, 0, Option.none⟩
  else
    match collectDates now commits with
    | .error e => .error e
    | .ok dates =>
      if dates.length < 2 then .ok ⟨1, 25, commits.length, Option.none⟩
      else
        match pySortDates dates with
        | .error e => .error e
        | .ok sorted =>
          match pdSub (sorted.getLastD dummyDt) (sorted.headD dummyDt) with
          | .error e => .error e
          | .ok diff =>
            let span0 := tdDays diff
            let time_span : ℤ := if span0 = 0 then 1 else span0
            let frequency : ℚ := (commits.length : ℚ) / (time_span : ℚ)
            let score := normalize_score frequency 0 5 false
            .ok ⟨pyRound frequency 4, score, commits.length, some time_span⟩

/-- Result dict of `compute_issue_resolution`. -/
structure IRResult where
  raw : ℚ
  score : ℚ
  resolved_count : ℕ
  total_issues : ℕ
deriving DecidableEq, Repr

/-- One iteration of the issue loop: non-dict records and non-closed states
are skipped; for a closed record with truthy `created_at` and `closed_at`,
the clamped resolution time in days.  A non-string `state` value has no
`.lower()` and raises. -/
def issueRecordResolution (now : PDt) (i : PVal) : Except String (Option ℚ) :=
  match i with
  | .dict fs =>
    match asLowerStr (dgetD fs "state" (.str "")) with
    | .error e => .error e
    | .ok state =>
      if state ≠ "closed" then .ok Option.none
      else
        let created_at := dgetD fs "created_at" .none
        let closed_at := dgetD fs "closed_at" .none
        if truthy created_at && truthy closed_at then
          match parse_datetime now created_at with
          | .error e => .error e
          | .ok created =>
            match parse_datetime now closed_at with
            | .error e => .error e
            | .ok closed =>
              match pdSub closed created with
              | .error e => .error e
              | .ok diff => .ok (some (max 0 (diff / (24 * 3600))))
        else .ok Option.none
  | _ => .ok Option.none

/-- The `resolution_times` list of `compute_issue_resolution`. -/
def collectResolutions (now : PDt) : List PVal → Except String (List ℚ)
  | [] => .ok []
  | i :: t =>
    match issueRecordResolution now i with
    | .error e => .error e
    | .ok r? =>
      match collectResolutions now t with
      | .error e => .error e
      | .ok rest => .ok (match r? with | some r => r :: rest | Option.none => rest)

/-- Source: `metrics.compute_issue_resolution`. -/
def compute_issue_resolution (now : PDt) (issues : List PVal) :
    Except String IRResult :=
  if issues.isEmpty then .ok ⟨0, 50, 0, 0⟩
  else
    match collectResolutions now issues with
    | .error e => .error e
    | .ok times =>
      if times.isEmpty then .ok ⟨0, 50, 0, issues.length⟩
      else
        let avg := times.sum / (times.length : ℚ)
        .ok ⟨pyRound avg 2, normalize_score avg 0 30 true, times.length, issues.length⟩

/-- Result dict of `compute_pr_rejection`; the `open` count is absent from
the empty-input branch of the source (`openCount = Option.none` there; the
field is renamed because `open` is a Lean keyword). -/
structure PRResult where
  raw : ℚ
  score : ℚ
  rejected : ℕ
  merged : ℕ
  openCount : Option ℕ
  total : ℕ
deriving DecidableEq, Repr

/-- One iteration of the PR classification loop over the accumulator
`(merged, rejected, open)`: skip non-dicts; `state.lower()` raises on
non-string states; `merged` is truthy `pr.get('merged', False)` or a
non-`None` `pr.get('merged_at')`. -/
def prClassify (acc : ℕ × ℕ × ℕ) (pr : PVal) : Except String (ℕ × ℕ × ℕ) :=
  match pr with
  | .dict fs =>
    match asLowerStr (dgetD fs "state" (.str "")) with
    | .error e => .error e
    | .ok state =>
      let merged := truthy (dgetD fs "merged" (.bool false)) ||
        isNotNone (dgetD fs "merged_at" .none)
      if state = "open" then .ok (acc.1, acc.2.1, acc.2.2 + 1)
      else if merged then .ok (acc.1 + 1, acc.2.1, acc.2.2)
      else if state = "closed" then .ok (acc.1, acc.2.1 + 1, acc.2.2)
      else .ok acc
  | _ => .ok acc

def countPRs (acc : ℕ × ℕ × ℕ) : List PVal → Except String (ℕ × ℕ × ℕ)
  | [] => .ok acc
  | pr :: t =>
    match prClassify acc pr with
    | .error e => .error e
    | .ok acc' => countPRs acc' t

/-- Source: `metrics.compute_pr_rejection`. -/
def compute_pr_rejection (prs : List PVal) : Except String PRResult :=
  if prs.isEmpty then .ok ⟨0, 50, 0, 0, Option.none, 0⟩
  else
    match countPRs (0, 0, 0) prs with
    | .error e => .error e
    | .ok (merged_count, rejected_count, open_count) =>
      let total_closed := merged_count + rejected_count
      if total_closed = 0 then
        .ok ⟨0, 50, 0, 0, some open_count, prs.length⟩
      else
        let rejection_rate : ℚ := (rejected_count : ℚ) / (total_closed : ℚ)
        let score := normalize_score rejection_rate 0 (1/2) true
        .ok ⟨pyRound rejection_rate 4, score, rejected_count, merged_count,
          some open_count, prs.length⟩

/-! ## Test-file ratio -/

mutual

/-- Python `repr` of a value, used inside container `str()`.  Atom reprs are
faithful except `float`/`datetime` (Python shortest-roundtrip float repr and
calendar rendering are out of scope; these affect only which path string a
float- or datetime-valued file entry contributes to `compute_test_ratio`). -/
def pyReprV : PVal → String
  | .none => "None"
  | .bool b => if b then "True" else "False"
  | .int n => toString n
  | .float q => toString q
  | .str s => "\x27" ++ s ++ "\x27"
  | .dt d => "datetime(" ++ toString d.sec ++ ")"
  | .list xs => "[" ++ ", ".intercalate (pyReprList xs) ++ "]"
  | .dict fs => "\x7b" ++ ", ".intercalate (pyReprFields fs) ++ "\x7d"

def pyReprList : List PVal → List String
  | [] => []
  | v :: t => pyReprV v :: pyReprList t

def pyReprFields : List (String × PVal) → List String
  | [] => []
  | (k, v) :: t => ("\x27" ++ k ++ "\x27: " ++ pyReprV v) :: pyReprFields t

end

/-- Python `str(v)`: identity on strings, `repr`-style otherwise (with the
same fidelity scope as `pyReprV`). -/
def pyStrConv : PVal → String
  | .str s => s
  | v => pyReprV v

/-- The `code_extensions` allow-list of `compute_test_ratio`. -/
def codeExtensions : List String :=
  [".py", ".js", ".ts", ".jsx", ".tsx", ".java", ".kt", ".go",
   ".rb", ".rs", ".c", ".cpp", ".h", ".hpp", ".cs", ".php",
   ".swift", ".scala", ".clj", ".ex", ".exs", ".vue", ".svelte"]

/-- `pat` occurs as a contiguous substring of `s`. -/
def containsSub (pat s : List Char) : Bool :=
  match s with
  | [] => pat.isEmpty
  | _ :: t => pat.isPrefixOf s || containsSub pat t

def lowerChars (s : String) : List Char := s.data.map Char.toLower

/-- `test_regex.search(file_path)` with `re.IGNORECASE`, for the combined
pattern of `compute_test_ratio`, resolved alternation by alternation.  With
`search`, a pattern anchored only by `$` holds iff the (lowercased) path ends
with the literal suffix; `test_.*\.py$` holds iff the path ends with `.py`
and contains `test_` ending at least 3 characters before the end (the `.*`
gap); the unanchored `tests?/.*`, `__tests__/.*` hold iff the literal occurs
anywhere.  (`.` not matching a newline, and `$` also matching before a final
newline, differ only on paths containing newline characters — out of scope.) -/
def isTestPath (p : String) : Bool :=
  let l := lowerChars p
  -- test_.*\.py$
  (".py".data.isSuffixOf l && containsSub "test_".data (l.take (l.length - 3)))
  -- .*_test\.py$ ; .*_spec\.py$
  || "_test.py".data.isSuffixOf l
  || "_spec.py".data.isSuffixOf l
  -- .*\.test\.[jt]sx?$
  || ".test.js".data.isSuffixOf l || ".test.ts".data.isSuffixOf l
  || ".test.jsx".data.isSuffixOf l || ".test.tsx".data.isSuffixOf l
  -- .*\.spec\.[jt]sx?$
  || ".spec.js".data.isSuffixOf l || ".spec.ts".data.isSuffixOf l
  || ".spec.jsx".data.isSuffixOf l || ".spec.tsx".data.isSuffixOf l
  -- tests?/.*
  || containsSub "tests/".data l || containsSub "test/".data l
  -- __tests__/.*
  || containsSub "__tests__/".data l
  -- .*Test\.(java|kt)$   (case-insensitive, so a lowercase suffix check)
  || "test.java".data.isSuffixOf l || "test.kt".data.isSuffixOf l
  -- .*_test\.go$ ; .*_test\.rb$ ; .*_spec\.rb$
  || "_test.go".data.isSuffixOf l
  || "_test.rb".data.isSuffixOf l
  || "_spec.rb".data.isSuffixOf l

/-- `any(file_path.lower().endswith(ext) for ext in code_extensions)`. -/
def hasCodeExtension (p : String) : Bool :=
  codeExtensions.any (fun e => e.data.isSuffixOf (lowerChars p))

/-- Count one usable path into the `(test_file_count, total_file_count)`
accumulator. -/
def tallyFile (acc : ℕ × ℕ) (s : String) : ℕ × ℕ :=
  if hasCodeExtension s then
    (if isTestPath s then acc.1 + 1 else acc.1, acc.2 + 1)
  else acc

/-- One iteration of the file loop: path extraction (dict `path`/`name`
lookup or `str()`), the falsy-path skip, then the extension gate — where a
truthy non-string path from a dict raises at `.lower()`. -/
def fileStep (acc : ℕ × ℕ) (e : PVal) : Except String (ℕ × ℕ) :=
  match e with
  | .dict fs =>
    let p := dgetD fs "path" (dgetD fs "name" (.str ""))
    if truthy p then
      match p with
      | .str s => .ok (tallyFile acc s)
      | _ => .error "AttributeError"
    else .ok acc
  | v =>
    let s := pyStrConv v
    if s ≠ "" then .ok (tallyFile acc s) else .ok acc

def countFiles (acc : ℕ × ℕ) : List PVal → Except String (ℕ × ℕ)
  | [] => .ok acc
  | e :: t =>
    match fileStep acc e with
    | .error err => .error err
    | .ok acc' => countFiles acc' t

/-- Result dict of `compute_test_ratio`. -/
structure TRResult where
  raw : ℚ
  score : ℚ
  test_files : ℕ
  total_files : ℕ
deriving DecidableEq, Repr

/-- Source: `metrics.compute_test_ratio`. -/
def compute_test_ratio (files : List PVal) : Except String TRResult :=
  if files.isEmpty then .ok ⟨0, 0, 0, 0⟩
  else
    match countFiles (0, 0) files with
    | .error e => .error e
    | .ok (test_file_count, total_file_count) =>
      if total_file_count = 0 then .ok ⟨0, 0, 0, 0⟩
      else
        let test_ratio : ℚ := (test_file_count : ℚ) / (total_file_count : ℚ)
        let score := normalize_score test_ratio 0 (3/10) false
        .ok ⟨pyRound test_ratio 4, score, test_file_count, total_file_count⟩

/-! ## Weighted scoring (`analytics/scoring.py`) -/

/-- First-match association lookup (Python dict `get`/membership on a
unique-key mapping). -/
def alookup (fs : List (String × ℚ)) (k : String) : Option ℚ :=
  match fs with
  | [] => Option.none
  | p :: t => if p.1 = k then some p.2 else alookup t k

/-- Source: `scoring.DEFAULT_WEIGHTS`. -/
def DEFAULT_WEIGHTS : List (String × ℚ) :=
  [("commit_frequency", 1/4), ("issue_resolution", 1/4),
   ("pr_rejection", 1/4), ("test_ratio", 1/4)]

/-- The per-metric loop body of `calculate_weighted_score` over the
accumulator `(weighted_sum, total_weight)`: `weights.get(name, 0.0)`, with
the equal-share `1/len(scores)` fallback exactly when that weight is `0.0`
because the name is missing from `weights`. -/
def cwsStep (weights : List (String × ℚ)) (n : ℕ) (acc : ℚ × ℚ)
    (p : String × ℚ) : ℚ × ℚ :=
  let w0 := (alookup weights p.1).getD 0
  let w := if w0 = 0 ∧ (alookup weights p.1).isNone then (1 : ℚ) / (n : ℚ) else w0
  (acc.1 + p.2 * w, acc.2 + w)

/-- Source: `scoring.calculate_weighted_score`; `weights? = Option.none`
models the `weights=None` default that selects `DEFAULT_WEIGHTS`. -/
def calculate_weighted_score (scores : List (String × ℚ))
    (weights? : Option (List (String × ℚ))) : ℚ :=
  if scores.isEmpty then 0
  else
    let weights := weights?.getD DEFAULT_WEIGHTS
    let r := scores.foldl (cwsStep weights scores.length) (0, 0)
    if r.2 = 0 then 0 else r.1 / r.2 * (if r.2 ≤ 1 then r.2 else 1)

/-! ## Trend engine (`analytics/trends.py`) -/

/-- Fixed-point formatting `f"{q:.precf}"` on the idealised rationals
(round-half-to-even, zero-padded fraction).  Python's signed `-0.0` cannot
arise on exact rationals — out of scope. -/
def fmtFixed (prec : ℕ) (q : ℚ) : String :=
  let m := roundHalfEven (q * 10 ^ prec)
  let a := m.natAbs
  let ip := a / 10 ^ prec
  let fp := a % 10 ^ prec
  let fs := toString fp
  let fs := String.mk (List.replicate (prec - fs.length) '0') ++ fs
  (if m < 0 then "-" else "") ++ toString ip ++ "." ++ fs

/-- The cumulative-average loop of `_calculate_moving_average` (`cumsum`
running over the list, dividing by the 1-based position). -/
def cumAvgAux (acc : ℚ) (k : ℕ) : List ℚ → List ℚ
  | [] => []
  | v :: t => ((acc + v) / ((k : ℚ) + 1)) :: cumAvgAux (acc + v) (k + 1) t

/-- The rolling-window loop of `_calculate_moving_average`
(`window_sum - values[i - window] + values[i]` for `i` from `w` up), with
the loop count `vals.length - i` as structural fuel so the kernel can
evaluate it (the guard `i < vals.length` is the loop condition). -/
def maFromAux (vals : List ℚ) (w : ℕ) : ℕ → ℕ → ℚ → List ℚ
  | _, 0, _ => []
  | i, fuel + 1, wsum =>
    if i < vals.length then
      let ws := wsum - vals.getD (i - w) 0 + vals.getD i 0
      (ws / (w : ℚ)) :: maFromAux vals w (i + 1) fuel ws
    else []

def maFrom (vals : List ℚ) (w : ℕ) (i : ℕ) (wsum : ℚ) : List ℚ :=
  maFromAux vals w i (vals.length - i) wsum

/-- Source: `trends._calculate_moving_average`.  The `window <= 0` guard is
the `window = 0` case on `ℕ` (the embedded callers pass `7` or
`min(7, len)` on lists of length ≥ 2, both positive). -/
def calculate_moving_average (values : List ℚ) (window : ℕ) : List ℚ :=
  if values.isEmpty ∨ window = 0 then []
  else if values.length < window then cumAvgAux 0 0 values
  else
    let window_sum := (values.take window).sum
    let result := (window_sum / (window : ℚ)) :: maFrom values window window window_sum
    let pre := cumAvgAux 0 0 (values.take (window - 1))
    pre ++ result

structure RegResult where
  slope : ℚ
  intercept : ℚ
  r_squared : ℚ
deriving DecidableEq, Repr

/-- `mean_x = sum(x) / n` of `_calculate_linear_regression` (`n = len(x)`). -/
def clrMeanX (x : List ℚ) : ℚ := x.sum / (x.length : ℚ)

/-- `mean_y = sum(y) / n` — the divisor is `len(x)`, as in the source. -/
def clrMeanY (x y : List ℚ) : ℚ := y.sum / (x.length : ℚ)

/-- `ss_xx = sum((xi - mean_x) ** 2 for xi in x)`. -/
def clrSSxx (x : List ℚ) : ℚ :=
  (x.map (fun xi => (xi - clrMeanX x) ^ 2)).sum

/-- `ss_yy = sum((yi - mean_y) ** 2 for yi in y)`. -/
def clrSSyy (x y : List ℚ) : ℚ :=
  (y.map (fun yi => (yi - clrMeanY x y) ^ 2)).sum

/-- `ss_xy = sum((xi - mean_x) * (yi - mean_y) for xi, yi in zip(x, y))`. -/
def clrSSxy (x y : List ℚ) : ℚ :=
  ((x.zip y).map (fun p => (p.1 - clrMeanX x) * (p.2 - clrMeanY x y))).sum

/-- Source: `trends._calculate_linear_regression` (the leading underscore is
dropped; likewise for the other helpers below).  The `let`-bound
subexpressions of the source are the named definitions above. -/
def calculate_linear_regression (x y : List ℚ) : RegResult :=
  if x.length < 2 then ⟨0, 0, 0⟩
  else
    let slope := if clrSSxx x = 0 then 0 else clrSSxy x y / clrSSxx x
    let intercept :=
      if clrSSxx x = 0 then clrMeanY x y
      else clrMeanY x y - (clrSSxy x y / clrSSxx x) * clrMeanX x
    let r_squared :=
      if clrSSyy x y = 0 then (if clrSSxy x y = 0 then (1 : ℚ) else 0)
      else (if 0 < clrSSxx x then clrSSxy x y ^ 2 / (clrSSxx x * clrSSyy x y)
            else 0)
    ⟨pyRound slope 6, pyRound intercept 4, pyRound r_squared 4⟩

/-- Source: `trends._get_trend_direction`; the Python default
`threshold=0.01` is passed explicitly by the embedded callers. -/
def get_trend_direction (slope threshold : ℚ) : String :=
  if slope > threshold then "artan"
  else if slope < -threshold then "azalan"
  else "sabit"

/-- Source: `trends._get_trend_strength`. -/
def get_trend_strength (r2 : ℚ) : String :=
  if 7/10 ≤ r2 then "güçlü"
  else if 4/10 ≤ r2 then "orta"
  else if 2/10 ≤ r2 then "zayıf"
  else "belirsiz"

/-- The `direction_text[trend_direction]` lookup of `compute_commit_trend`
(total here because the direction is always one of the three keys). -/
def commitDirectionText (d : String) : String :=
  if d = "artan" then "artış gösteriyor"
  else if d = "azalan" then "düşüş gösteriyor"
  else "sabit seyrediyor"

/-- The `while current_date <= end_date` day loop: consecutive day numbers,
with the iteration count `(endD + 1 - cur).toNat` as structural fuel so the
kernel can evaluate it (zero fuel exactly when `endD < cur`). -/
def dayRangeAux (cur : ℤ) : ℕ → List ℤ
  | 0 => []
  | n + 1 => cur :: dayRangeAux (cur + 1) n

def dayRange (cur endD : ℤ) : List ℤ :=
  dayRangeAux cur (endD + 1 - cur).toNat

/-- A `{"date": ..., "count": ...}` entry of the commit time series; `date`
is the day number standing for its `"%Y-%m-%d"` key. -/
structure TSEntry where
  date : ℤ
  count : ℕ
deriving DecidableEq, Repr

/-- A moving-average series entry (`ma7`/`ma` key; `None` when the index is
beyond the computed averages). -/
structure MAEntry where
  date : ℤ
  ma : Option ℚ
deriving DecidableEq, Repr

/-- The `moving_average` field of `compute_commit_trend` is a list of dicts
on the main path but a bare list of floats on the <2-dates path. -/
inductive MAField where
  | entries (l : List MAEntry)
  | nums (l : List ℚ)
deriving DecidableEq, Repr

/-- Result dict of `compute_commit_trend`; fields that only the main branch
emits are `Option`-valued. -/
structure CTResult where
  time_series : List TSEntry
  moving_average : MAField
  daily_values : Option (List ℚ)
  ma7_values : Option (List ℚ)
  regression : RegResult
  trend_direction : String
  trend_strength : String
  average_daily_commits : Option ℚ
  total_days : Option ℕ
  summary : String
deriving DecidableEq, Repr

/-- Source: `trends.compute_commit_trend`. -/
def compute_commit_trend (now : PDt) (commits : List PVal) :
    Except String CTResult :=
  if commits.isEmpty then
    .ok ⟨[], .entries [], Option.none, Option.none, ⟨0, 0, 0⟩, "sabit",
      "belirsiz", Option.none, Option.none, "Yeterli commit verisi yok."⟩
  else
    match collectDates now commits with
    | .error e => .error e
    | .ok dates =>
      if dates.length < 2 then
        .ok (match dates with
          | [] => ⟨[], .nums [], Option.none, Option.none, ⟨0, 0, 0⟩, "sabit",
              "belirsiz", Option.none, Option.none,
              "Trend analizi için yeterli veri yok."⟩
          | d :: _ => ⟨[⟨d.wallDay, 1⟩], .nums [1], Option.none, Option.none,
              ⟨0, 0, 0⟩, "sabit", "belirsiz", Option.none, Option.none,
              "Trend analizi için yeterli veri yok."⟩)
      else
        match pySortDates dates with
        | .error e => .error e
        | .ok sorted =>
          match pyMinDates sorted with
          | .error e => .error e
          | .ok mind =>
            match pyMaxDates sorted with
            | .error e => .error e
            | .ok maxd =>
              let start_date := mind.wallDay
              let end_date := maxd.wallDay
              let wall := sorted.map PDt.wallDay
              let time_series :=
                (dayRange start_date end_date).map
                  (fun d => (⟨d, wall.count d⟩ : TSEntry))
              let values := time_series.map (fun e => (e.count : ℚ))
              let ma7 := calculate_moving_average values 7
              let x := (List.range values.length).map (fun i => (i : ℚ))
              let regression := calculate_linear_regression x values
              let trend_direction := get_trend_direction regression.slope (1/100)
              let trend_strength := get_trend_strength regression.r_squared
              let avg_commits :=
                if values.isEmpty then 0 else values.sum / (values.length : ℚ)
              let summary :=
                "Günlük ortalama " ++ fmtFixed 1 avg_commits ++
                " commit. Trend " ++ trend_strength ++ " şekilde " ++
                commitDirectionText trend_direction ++ ". (Eğim: " ++
                fmtFixed 4 regression.slope ++ ", R²: " ++
                fmtFixed 2 regression.r_squared ++ ")"
              let ma7_series :=
                (time_series.enum).map
                  (fun p =>
                    (⟨p.2.date, (ma7.get? p.1).map (fun v => pyRound v 2)⟩ :
                      MAEntry))
              .ok ⟨time_series, .entries ma7_series, some values,
                some (ma7.map (fun v => pyRound v 2)), regression,
                trend_direction, trend_strength, some (pyRound avg_commits 2),
                some time_series.length, summary⟩

/-- A resolved-issue record of `compute_issue_trend`'s collection phase
(`{"closed_date": datetime, "resolution_days": ..., "resolution_hours": ...}`). -/
structure RawResolved where
  closed_date : PDt
  resolution_days : ℚ
  resolution_hours : ℚ
deriving DecidableEq, Repr

/-- A `resolution_series` entry: the closing day (standing for its
`"%Y-%m-%d"` key) with rounded day/hour durations. -/
structure RSEntry where
  date : ℤ
  resolution_days : ℚ
  resolution_hours : ℚ
deriving DecidableEq, Repr

/-- The `resolution_series` field: the raw resolved records on the <2 path,
the formatted series on the main path. -/
inductive RSField where
  | raw (l : List RawResolved)
  | series (l : List RSEntry)
deriving DecidableEq, Repr

/-- The `statistics` sub-dict of `compute_issue_trend`. -/
structure ITStats where
  average_days : ℚ
  min_days : ℚ
  max_days : ℚ
  total_resolved : ℕ
deriving DecidableEq, Repr

/-- Result dict of `compute_issue_trend`. -/
structure ITResult where
  resolution_series : RSField
  moving_average : List MAEntry
  resolution_values : Option (List ℚ)
  ma_values : Option (List ℚ)
  regression : RegResult
  trend_direction : String
  trend_strength : String
  statistics : Option ITStats
  summary : String
deriving DecidableEq, Repr

/-- One iteration of the resolved-issue collection loop of
`compute_issue_trend` (same skips and failure points as
`issueRecordResolution`, keeping the closing datetime and both durations). -/
def issueResolvedRecord (now : PDt) (i : PVal) :
    Except String (Option RawResolved) :=
  match i with
  | .dict fs =>
    match asLowerStr (dgetD fs "state" (.str "")) with
    | .error e => .error e
    | .ok state =>
      if state ≠ "closed" then .ok Option.none
      else
        let created_at := dgetD fs "created_at" .none
        let closed_at := dgetD fs "closed_at" .none
        if truthy created_at && truthy closed_at then
          match parse_datetime now created_at with
          | .error e => .error e
          | .ok created =>
            match parse_datetime now closed_at with
            | .error e => .error e
            | .ok closed =>
              match pdSub closed created with
              | .error e => .error e
              | .ok diff =>
                let hours := diff / 3600
                let days := hours / 24
                .ok (some ⟨closed, max 0 days, max 0 hours⟩)
        else .ok Option.none
  | _ => .ok Option.none

def collectResolved (now : PDt) : List PVal → Except String (List RawResolved)
  | [] => .ok []
  | i :: t =>
    match issueResolvedRecord now i with
    | .error e => .error e
    | .ok r? =>
      match collectResolved now t with
      | .error e => .error e
      | .ok rest => .ok (match r? with | some r => r :: rest | Option.none => rest)

/-- Stable insertion by the `closed_date` instant (the
`sort(key=lambda x: x["closed_date"])` comparison). -/
def insortResolved (x : RawResolved) : List RawResolved → List RawResolved
  | [] => [x]
  | y :: ys =>
    if y.closed_date.instant < x.closed_date.instant then y :: insortResolved x ys
    else x :: y :: ys

def stableSortResolved : List RawResolved → List RawResolved
  | [] => []
  | x :: xs => insortResolved x (stableSortResolved xs)

/-- `resolved_issues.sort(key=...)`: stable by closing instant, raising
`TypeError` when the closing datetimes mix naive and aware. -/
def pySortResolved (l : List RawResolved) : Except String (List RawResolved) :=
  if uniformAware (l.map RawResolved.closed_date) then .ok (stableSortResolved l)
  else .error "TypeError"

/-- Python `min` over a non-empty float list (the sole caller guards
emptiness with `if values else 0`). -/
def pyMinQ (l : List ℚ) : ℚ :=
  match l with
  | [] => 0
  | x :: t => t.foldl min x

def pyMaxQ (l : List ℚ) : ℚ :=
  match l with
  | [] => 0
  | x :: t => t.foldl max x

/-- The `direction_text[trend_direction]` lookup of `compute_issue_trend`. -/
def issueDirectionText (d : String) : String :=
  if d = "iyileşiyor" then "azalma eğiliminde (iyileşiyor)"
  else if d = "kötüleşiyor" then "artma eğiliminde (kötüleşiyor)"
  else "sabit seyrediyor"

/-- Source: `trends.compute_issue_trend`. -/
def compute_issue_trend (now : PDt) (issues : List PVal) :
    Except String ITResult :=
  if issues.isEmpty then
    .ok ⟨.series [], [], Option.none, Option.none, ⟨0, 0, 0⟩, "sabit",
      "belirsiz", Option.none, "Yeterli issue verisi yok."⟩
  else
    match collectResolved now issues with
    | .error e => .error e
    | .ok resolved =>
      if resolved.length < 2 then
        .ok ⟨.raw resolved, [], Option.none, Option.none, ⟨0, 0, 0⟩, "sabit",
          "belirsiz", Option.none,
          "Trend analizi için yeterli çözülmüş issue yok."⟩
      else
        match pySortResolved resolved with
        | .error e => .error e
        | .ok sortedR =>
          let resolution_series :=
            sortedR.map (fun r =>
              (⟨r.closed_date.wallDay, pyRound r.resolution_days 2,
                pyRound r.resolution_hours 1⟩ : RSEntry))
          let values := sortedR.map RawResolved.resolution_days
          let window := min 7 values.length
          let ma := calculate_moving_average values window
          let x := (List.range values.length).map (fun i => (i : ℚ))
          let regression := calculate_linear_regression x values
          let slope := regression.slope
          let trend_direction :=
            if slope < -(1/100) then "iyileşiyor"
            else if slope > 1/100 then "kötüleşiyor"
            else "sabit"
          let trend_strength := get_trend_strength regression.r_squared
          let avg_resolution :=
            if values.isEmpty then 0 else values.sum / (values.length : ℚ)
          let min_resolution := if values.isEmpty then 0 else pyMinQ values
          let max_resolution := if values.isEmpty then 0 else pyMaxQ values
          let summary :=
            "Ortalama çözüm süresi: " ++ fmtFixed 1 avg_resolution ++
            " gün. Çözüm süreleri " ++ trend_strength ++ " şekilde " ++
            issueDirectionText trend_direction ++ ". (Min: " ++
            fmtFixed 1 min_resolution ++ ", Max: " ++
            fmtFixed 1 max_resolution ++ " gün)"
          let ma_series :=
            (resolution_series.enum).map
              (fun p =>
                (⟨p.2.date, (ma.get? p.1).map (fun v => pyRound v 2)⟩ : MAEntry))
          .ok ⟨.series resolution_series, ma_series,
            some (values.map (fun v => pyRound v 2)),
            some (ma.map (fun v => pyRound v 2)), regression, trend_direction,
            trend_strength,
            some ⟨pyRound avg_resolution 2, pyRound min_resolution 2,
              pyRound max_resolution 2, sortedR.length⟩, summary⟩

/-! ## Claim C3: normalizer algebra -/

theorem clampUnit_mono {a b : ℚ} (h : a ≤ b) :
    max 0 (min 1 a) ≤ max 0 (min 1 b) :=
  max_le_max (le_refl 0) (min_le_min (le_refl 1) h)

/-- **C3 (counterexample).**  The claim asserts monotonicity for every
`min_val ≠ max_val`; with the reversed range `min_val = 5 > max_val = 0` the
normalizer is strictly decreasing in `value`: at `0 ≤ 5` it yields
`100 > 0`.  (No caller of `_normalize_score` passes a reversed range.) -/
theorem normalize_score_reversed_range_decreases :
    (5 : ℚ) ≠ 0 ∧ (0 : ℚ) ≤ 5 ∧
      normalize_score 0 5 0 false = 100 ∧ normalize_score 5 5 0 false = 0 :=
  ⟨by norm_num, by norm_num, by decide, by decide⟩

/-- **C3 (amended).**  For `min_val < max_val` the normalizer is monotone
non-decreasing in `value` when `inverse` is false and non-increasing when
`inverse` is true; for all arguments the result lies in `[0, 100]`; and
`_normalize_score x a a inverse = 50` for every `x`, `a` and flag. -/
theorem normalize_score_props :
    (∀ min_val max_val v₁ v₂ : ℚ, min_val < max_val → v₁ ≤ v₂ →
      normalize_score v₁ min_val max_val false ≤
          normalize_score v₂ min_val max_val false ∧
        normalize_score v₂ min_val max_val true ≤
          normalize_score v₁ min_val max_val true) ∧
    (∀ (v mn mx : ℚ) (inv : Bool),
      0 ≤ normalize_score v mn mx inv ∧ normalize_score v mn mx inv ≤ 100) ∧
    (∀ (x a : ℚ) (inv : Bool), normalize_score x a a inv = 50) := by
  refine ⟨?_, normalize_score_range, ?_⟩
  · intro mn mx v₁ v₂ hlt hv
    have hne : mx ≠ mn := ne_of_gt hlt
    have hd : (0 : ℚ) < mx - mn := by linarith
    have hdiv : (v₁ - mn) / (mx - mn) ≤ (v₂ - mn) / (mx - mn) :=
      div_le_div_of_nonneg_right (by linarith) hd.le
    have hcl := clampUnit_mono hdiv
    constructor
    · unfold normalize_score
      rw [if_neg hne, if_neg hne]
      simp only [Bool.false_eq_true, if_false]
      exact pyRound_mono 2 (by nlinarith)
    · unfold normalize_score
      rw [if_neg hne, if_neg hne]
      simp only [if_true]
      exact pyRound_mono 2 (by nlinarith)
  · intro x a inv
    unfold normalize_score
    rw [if_pos rfl]

/-- **C3 (witness).**  The amended theorem instantiated at
`min_val = 0 < 5 = max_val`, `v₁ = 1 ≤ 2 = v₂`. -/
theorem normalize_score_props_witness :
    normalize_score 1 0 5 false ≤ normalize_score 2 0 5 false ∧
      normalize_score 2 0 5 true ≤ normalize_score 1 0 5 true :=
  normalize_score_props.1 0 5 1 2 (by norm_num) (by norm_num)

/-! ## Claim C2: scores lie in [0, 100] -/

/-- **C2.**  For every input list (and every clock value for the fallback
parse), whenever any of the four metric computers returns a result dict, its
`score` field lies in `[0, 100]`: every branch returns either one of the
constants `0`, `25`, `50`, or a `_normalize_score` value, which is always in
range. -/
theorem metric_scores_in_range (now : PDt) (l : List PVal) :
    (∀ r, compute_commit_frequency now l = .ok r →
      0 ≤ r.score ∧ r.score ≤ 100) ∧
    (∀ r, compute_issue_resolution now l = .ok r →
      0 ≤ r.score ∧ r.score ≤ 100) ∧
    (∀ r, compute_pr_rejection l = .ok r → 0 ≤ r.score ∧ r.score ≤ 100) ∧
    (∀ r, compute_test_ratio l = .ok r → 0 ≤ r.score ∧ r.score ≤ 100) := by
  refine ⟨?_, ?_, ?_, ?_⟩
  · intro r h
    unfold compute_commit_frequency at h
    split at h
    · cases h; constructor <;> norm_num
    · split at h
      · exact Except.noConfusion h
      · split at h
        · cases h; constructor <;> norm_num
        · split at h
          · exact Except.noConfusion h
          · split at h
            · exact Except.noConfusion h
            · cases h; exact normalize_score_range _ _ _ _
  · intro r h
    unfold compute_issue_resolution at h
    split at h
    · cases h; constructor <;> norm_num
    · split at h
      · exact Except.noConfusion h
      · split at h
        · cases h; constructor <;> norm_num
        · cases h; exact normalize_score_range _ _ _ _
  · intro r h
    unfold compute_pr_rejection at h
    split at h
    · cases h; constructor <;> norm_num
    · split at h
      · exact Except.noConfusion h
      · dsimp only at h
        split at h
        · cases h; constructor <;> norm_num
        · cases h; exact normalize_score_range _ _ _ _
  · intro r h
    unfold compute_test_ratio at h
    split at h
    · cases h; constructor <;> norm_num
    · split at h
      · exact Except.noConfusion h
      · split at h
        · cases h; constructor <;> norm_num
        · cases h; exact normalize_score_range _ _ _ _

/-- **C2 (witness).**  The range theorem applied to the sample inputs of the
source module's demo block (three commits over nine days; empty lists for
the other computers). -/
theorem metric_scores_in_range_witness :
    (0 ≤ (CFResult.mk (3333/10000) (667/100) 3 (some 9)).score ∧
      (CFResult.mk (3333/10000) (667/100) 3 (some 9)).score ≤ 100) ∧
    (0 ≤ (IRResult.mk 0 50 0 0).score ∧ (IRResult.mk 0 50 0 0).score ≤ 100) :=
  ⟨(metric_scores_in_range ⟨0, Option.none⟩
      [.dict [("commit", .dict [("author", .dict [("date",
          .str "2024-01-01T10:00:00Z")])])],
        .dict [("commit", .dict [("author", .dict [("date",
          .str "2024-01-05T10:00:00Z")])])],
        .dict [("commit", .dict [("author", .dict [("date",
          .str "2024-01-10T10:00:00Z")])])]]).1 _ (by decide),
    (metric_scores_in_range ⟨0, Option.none⟩ []).2.1 _ (by decide)⟩

/-! ## Claims C4, C5: weighted scoring -/

/-- The effective weight `calculate_weighted_score` gives a metric `name`
out of `n` scored metrics: its mapped weight when present (zero included),
the equal share `1/n` when absent. -/
def effWeight (weights : List (String × ℚ)) (n : ℕ) (name : String) : ℚ :=
  match alookup weights name with
  | some w => w
  | Option.none => 1 / (n : ℚ)

theorem cwsStep_eq (weights : List (String × ℚ)) (n : ℕ) (acc : ℚ × ℚ)
    (p : String × ℚ) :
    cwsStep weights n acc p =
      (acc.1 + p.2 * effWeight weights n p.1, acc.2 + effWeight weights n p.1) := by
  unfold cwsStep effWeight
  cases halo : alookup weights p.1 with
  | none => simp [halo]
  | some w => simp [halo]

theorem cws_foldl (weights : List (String × ℚ)) (n : ℕ) :
    ∀ (l : List (String × ℚ)) (a b : ℚ),
      l.foldl (cwsStep weights n) (a, b) =
        (a + (l.map (fun p => p.2 * effWeight weights n p.1)).sum,
         b + (l.map (fun p => effWeight weights n p.1)).sum)
  | [], a, b => by simp
  | p :: t, a, b => by
    simp only [List.foldl_cons, List.map_cons, List.sum_cons, cwsStep_eq]
    rw [cws_foldl weights n t]
    simp [Prod.ext_iff]
    constructor <;> ring

/-- `weighted_sum` accumulated by `calculate_weighted_score`. -/
def weightedSum (scores weights : List (String × ℚ)) : ℚ :=
  (scores.map (fun p => p.2 * effWeight weights scores.length p.1)).sum

/-- `total_weight` accumulated by `calculate_weighted_score`. -/
def totalWeight (scores weights : List (String × ℚ)) : ℚ :=
  (scores.map (fun p => effWeight weights scores.length p.1)).sum

/-- **C4.**  `calculate_weighted_score` computes
`weighted_sum / total_weight * min(total_weight, 1)` (and `0` for zero total
weight): the weighted sum divided by the total weight, where the final
factor `min(total_weight, 1)` is the clamp — when the total weight exceeds 1
the result is exactly the quotient `weighted_sum / total_weight`, which only
scales the weighted sum down, never amplifies it (for non-negative sums the
result exceeds neither `weighted_sum` nor the quotient); and on the default
equal weights with scores `80, 60, 40, 20` it returns exactly `50`. -/
theorem calculate_weighted_score_spec :
    (∀ (scores weights : List (String × ℚ)), scores ≠ [] →
      calculate_weighted_score scores (some weights) =
        (if totalWeight scores weights = 0 then 0
         else weightedSum scores weights / totalWeight scores weights *
           (if totalWeight scores weights ≤ 1 then totalWeight scores weights
            else 1))) ∧
    (∀ (scores weights : List (String × ℚ)), scores ≠ [] →
      0 ≤ weightedSum scores weights → 0 < totalWeight scores weights →
      calculate_weighted_score scores (some weights) ≤
          weightedSum scores weights / totalWeight scores weights ∧
        calculate_weighted_score scores (some weights) ≤
          weightedSum scores weights ∧
        (1 < totalWeight scores weights →
          calculate_weighted_score scores (some weights) =
            weightedSum scores weights / totalWeight scores weights)) ∧
    calculate_weighted_score
      [("commit_frequency", 80), ("issue_resolution", 60),
       ("pr_rejection", 40), ("test_ratio", 20)] Option.none = 50 := by
  have main : ∀ (scores weights : List (String × ℚ)), scores ≠ [] →
      calculate_weighted_score scores (some weights) =
        (if totalWeight scores weights = 0 then 0
         else weightedSum scores weights / totalWeight scores weights *
           (if totalWeight scores weights ≤ 1 then totalWeight scores weights
            else 1)) := by
    intro scores weights hne
    unfold calculate_weighted_score
    rw [if_neg (by simpa using hne)]
    simp only [Option.getD_some]
    rw [cws_foldl]
    simp only [zero_add]
    rfl
  refine ⟨main, ?_, by decide⟩
  intro scores weights hne hws htw
  rw [main scores weights hne, if_neg (ne_of_gt htw)]
  set ws := weightedSum scores weights with hws'
  set tw := totalWeight scores weights with htw'
  by_cases hle : tw ≤ 1
  · rw [if_pos hle]
    have heq : ws / tw * tw = ws := div_mul_cancel₀ ws (ne_of_gt htw)
    refine ⟨?_, ?_, ?_⟩
    · rw [heq]
      rw [le_div_iff₀ htw]
      nlinarith
    · rw [heq]
    · intro h1; exact absurd h1 (not_lt.mpr hle)
  · rw [if_neg hle]
    push_neg at hle
    have hq : 0 ≤ ws / tw := div_nonneg hws htw.le
    refine ⟨by rw [mul_one], ?_, fun _ => by rw [mul_one]⟩
    rw [mul_one, div_le_iff₀ htw]
    nlinarith

/-- **C4 (witness).**  The closed form and non-amplification applied at a
concrete mapping with total weight `3/2 > 1`. -/
theorem calculate_weighted_score_spec_witness :
    calculate_weighted_score [("a", 100), ("b", 0)] (some [("a", 1)]) =
      weightedSum [("a", 100), ("b", 0)] [("a", 1)] /
        totalWeight [("a", 100), ("b", 0)] [("a", 1)] :=
  (calculate_weighted_score_spec.2.1 [("a", 100), ("b", 0)] [("a", 1)]
      (by decide) (by decide) (by decide)).2.2 (by decide)

/-- **C5.**  In `calculate_weighted_score`, a metric missing from the
weights mapping gets the equal share `1/len(scores)` while a metric
explicitly mapped to `0` contributes weight `0`; consequently the two cases
produce different overall scores on `scores = {a: 100, b: 0}` with
`weights = {a: 1, b: 0}` versus `weights = {a: 1}` (100 versus 200/3). -/
theorem zero_weight_vs_missing_metric :
    (∀ (weights : List (String × ℚ)) (n : ℕ) (acc : ℚ × ℚ) (p : String × ℚ),
      cwsStep weights n acc p =
        (acc.1 + p.2 * effWeight weights n p.1,
         acc.2 + effWeight weights n p.1)) ∧
    (∀ (weights : List (String × ℚ)) (n : ℕ) (name : String),
      (alookup weights name = some 0 → effWeight weights n name = 0) ∧
      (alookup weights name = Option.none →
        effWeight weights n name = 1 / (n : ℚ))) ∧
    calculate_weighted_score [("a", 100), ("b", 0)]
        (some [("a", 1), ("b", 0)]) = 100 ∧
    calculate_weighted_score [("a", 100), ("b", 0)] (some [("a", 1)]) =
      200 / 3 ∧
    ((100 : ℚ) ≠ 200 / 3) := by
  refine ⟨cwsStep_eq, ?_, by decide, by decide, by norm_num⟩
  intro weights n name
  constructor
  · intro h; unfold effWeight; rw [h]
  · intro h; unfold effWeight; rw [h]

/-- **C5 (witness).**  The weight characterization applied at the concrete
mappings of the divergence pair. -/
theorem zero_weight_vs_missing_metric_witness :
    effWeight [("a", 1)] 2 "b" = 1 / (2 : ℚ) ∧
      effWeight [("a", 1), ("b", 0)] 2 "b" = 0 :=
  ⟨by
    have h := (zero_weight_vs_missing_metric.2.1 [("a", 1)] 2 "b").2 (by decide)
    simpa using h,
   (zero_weight_vs_missing_metric.2.1 [("a", 1), ("b", 0)] 2 "b").1 (by decide)⟩

/-! ## Claim C7: linear regression -/

/-- The unrounded OLS slope of the source's formulas (`ss_xy / ss_xx`, with
`ss_xx` over `x`, `ss_xy` over `zip(x, y)`, and the means over `len(x)`). -/
def olsSlope (x y : List ℚ) : ℚ := clrSSxy x y / clrSSxx x

/-- The unrounded OLS intercept `mean_y - slope * mean_x`. -/
def olsIntercept (x y : List ℚ) : ℚ :=
  clrMeanY x y - olsSlope x y * clrMeanX x

/-- Residual sum of squares of the affine model `y = a x + b` over the
paired data. -/
def residualSS (x y : List ℚ) (a b : ℚ) : ℚ :=
  ((x.zip y).map (fun p => (p.2 - (a * p.1 + b)) ^ 2)).sum

/-- All entries of the list are equal (the x-values carry no variance). -/
def allEqQ (l : List ℚ) : Prop := ∀ a ∈ l, ∀ b ∈ l, a = b

instance (l : List ℚ) : Decidable (allEqQ l) := by
  unfold allEqQ
  infer_instance

theorem sum_sq_nonneg {α : Type} (l : List α) (f : α → ℚ) :
    0 ≤ (l.map (fun v => (f v) ^ 2)).sum := by
  apply List.sum_nonneg
  intro z hz
  obtain ⟨v, _, rfl⟩ := List.mem_map.mp hz
  exact sq_nonneg _

theorem listCS_aux (L : List (ℚ × ℚ)) (u v : ℚ) :
    0 ≤ u ^ 2 * (L.map (fun p => p.2 ^ 2)).sum -
      2 * u * v * (L.map (fun p => p.1 * p.2)).sum +
      v ^ 2 * (L.map (fun p => p.1 ^ 2)).sum := by
  induction L with
  | nil => simp
  | cons q t ih =>
    simp only [List.map_cons, List.sum_cons]
    nlinarith [sq_nonneg (u * q.2 - v * q.1)]

/-- Cauchy-Schwarz for list sums, by induction. -/
theorem listCS (L : List (ℚ × ℚ)) :
    ((L.map (fun p => p.1 * p.2)).sum) ^ 2 ≤
      (L.map (fun p => p.1 ^ 2)).sum * (L.map (fun p => p.2 ^ 2)).sum := by
  induction L with
  | nil => simp
  | cons q t ih =>
    simp only [List.map_cons, List.sum_cons]
    have key := listCS_aux t q.1 q.2
    have hA := sum_sq_nonneg t (fun p => p.1)
    have hB := sum_sq_nonneg t (fun p => p.2)
    simp only at hA hB
    nlinarith [ih, key]

theorem zip_fst_sum (g : ℚ → ℚ) :
    ∀ (x y : List ℚ), x.length = y.length →
      ((x.zip y).map (fun p => g p.1)).sum = (x.map g).sum
  | [], [], _ => by simp
  | [], _ :: _, h => by simp at h
  | _ :: _, [], h => by simp at h
  | a :: x, b :: y, h => by
    simp only [List.zip_cons_cons, List.map_cons, List.sum_cons]
    rw [zip_fst_sum g x y (by simpa using h)]

theorem zip_snd_sum (g : ℚ → ℚ) :
    ∀ (x y : List ℚ), x.length = y.length →
      ((x.zip y).map (fun p => g p.2)).sum = (y.map g).sum
  | [], [], _ => by simp
  | [], _ :: _, h => by simp at h
  | _ :: _, [], h => by simp at h
  | a :: x, b :: y, h => by
    simp only [List.zip_cons_cons, List.map_cons, List.sum_cons]
    rw [zip_snd_sum g x y (by simpa using h)]

theorem sum_sub_const (l : List ℚ) (m : ℚ) :
    (l.map (fun v => v - m)).sum = l.sum - l.length * m := by
  induction l with
  | nil => simp
  | cons v t ih =>
    simp only [List.map_cons, List.sum_cons, List.length_cons]
    rw [ih]
    push_cast
    ring

theorem sum_add_const_sq {α : Type} (L : List α) (f : α → ℚ) (c : ℚ) :
    (L.map (fun p => (f p + c) ^ 2)).sum =
      (L.map (fun p => (f p) ^ 2)).sum + 2 * c * (L.map f).sum +
        L.length * c ^ 2 := by
  induction L with
  | nil => simp
  | cons q t ih =>
    simp only [List.map_cons, List.sum_cons, List.length_cons]
    rw [ih]
    push_cast
    ring

theorem sum_lin_split (L : List (ℚ × ℚ)) (a mx my : ℚ) :
    (L.map (fun p => (p.2 - my) - a * (p.1 - mx))).sum =
      (L.map (fun p => p.2 - my)).sum - a * (L.map (fun p => p.1 - mx)).sum := by
  induction L with
  | nil => simp
  | cons q t ih =>
    simp only [List.map_cons, List.sum_cons]
    rw [ih]
    ring

theorem sum_sq_lin_split (L : List (ℚ × ℚ)) (a mx my : ℚ) :
    (L.map (fun p => ((p.2 - my) - a * (p.1 - mx)) ^ 2)).sum =
      (L.map (fun p => (p.2 - my) ^ 2)).sum -
        2 * a * (L.map (fun p => (p.1 - mx) * (p.2 - my))).sum +
        a ^ 2 * (L.map (fun p => (p.1 - mx) ^ 2)).sum := by
  induction L with
  | nil => simp
  | cons q t ih =>
    simp only [List.map_cons, List.sum_cons]
    rw [ih]
    ring

theorem sum_sq_zero_mem (m : ℚ) :
    ∀ (l : List ℚ), (l.map (fun v => (v - m) ^ 2)).sum = 0 → ∀ v ∈ l, v = m
  | [], _, v, hv => by simp at hv
  | u :: t, h, v, hv => by
    simp only [List.map_cons, List.sum_cons] at h
    have h1 := sq_nonneg (u - m)
    have h2 := sum_sq_nonneg t (fun v => v - m)
    simp only at h2
    have hu : (u - m) ^ 2 = 0 := by linarith
    have ht : (t.map (fun v => (v - m) ^ 2)).sum = 0 := by linarith
    rcases List.mem_cons.mp hv with rfl | hvt
    · have := pow_eq_zero_iff (n := 2) (by norm_num) |>.mp hu
      linarith [sub_eq_zero.mp this]
    · exact sum_sq_zero_mem m t ht v hvt

theorem length_two_of_not_allEq (x : List ℚ) (h : ¬allEqQ x) : 2 ≤ x.length := by
  match x with
  | [] => exact absurd (fun a ha => by simp at ha) h
  | [v] =>
    refine absurd ?_ h
    intro a ha b hb
    simp at ha hb
    rw [ha, hb]
  | a :: b :: t => simp

theorem clrSSxx_pos_of_not_allEq (x : List ℚ) (h : ¬allEqQ x) :
    0 < clrSSxx x := by
  rcases lt_or_eq_of_le (sum_sq_nonneg x (fun xi => xi - clrMeanX x)) with hlt | heq
  · exact hlt
  · exfalso
    apply h
    intro a ha b hb
    have hz := sum_sq_zero_mem (clrMeanX x) x heq.symm
    rw [hz a ha, hz b hb]

theorem zip_fst_sq_sum (x y : List ℚ) (m : ℚ) (hlen : x.length = y.length) :
    ((x.zip y).map (fun p => (p.1 - m) ^ 2)).sum =
      (x.map (fun v => (v - m) ^ 2)).sum :=
  zip_fst_sum (fun v => (v - m) ^ 2) x y hlen

theorem zip_snd_sq_sum (x y : List ℚ) (m : ℚ) (hlen : x.length = y.length) :
    ((x.zip y).map (fun p => (p.2 - m) ^ 2)).sum =
      (y.map (fun v => (v - m) ^ 2)).sum :=
  zip_snd_sum (fun v => (v - m) ^ 2) x y hlen

theorem zip_fst_sub_sum (x y : List ℚ) (m : ℚ) (hlen : x.length = y.length) :
    ((x.zip y).map (fun p => p.1 - m)).sum = (x.map (fun v => v - m)).sum :=
  zip_fst_sum (fun v => v - m) x y hlen

theorem zip_snd_sub_sum (x y : List ℚ) (m : ℚ) (hlen : x.length = y.length) :
    ((x.zip y).map (fun p => p.2 - m)).sum = (y.map (fun v => v - m)).sum :=
  zip_snd_sum (fun v => v - m) x y hlen

/-- Cauchy-Schwarz for the source's centered sums. -/
theorem clr_cauchy_schwarz (x y : List ℚ) (hlen : x.length = y.length) :
    clrSSxy x y ^ 2 ≤ clrSSxx x * clrSSyy x y := by
  have h := listCS ((x.zip y).map
    (fun p => (p.1 - clrMeanX x, p.2 - clrMeanY x y)))
  rw [List.map_map, List.map_map, List.map_map] at h
  simp only [Function.comp_def] at h
  rw [zip_fst_sq_sum x y (clrMeanX x) hlen,
    zip_snd_sq_sum x y (clrMeanY x y) hlen] at h
  exact h

theorem residual_expand (L : List (ℚ × ℚ)) (a b mx my : ℚ) :
    (L.map (fun p => (p.2 - (a * p.1 + b)) ^ 2)).sum =
      (L.map (fun p => (p.2 - my) ^ 2)).sum
        - 2 * a * (L.map (fun p => (p.1 - mx) * (p.2 - my))).sum
        + a ^ 2 * (L.map (fun p => (p.1 - mx) ^ 2)).sum
        + 2 * (my - a * mx - b) * ((L.map (fun p => p.2 - my)).sum
            - a * (L.map (fun p => p.1 - mx)).sum)
        + L.length * (my - a * mx - b) ^ 2 := by
  induction L with
  | nil => simp
  | cons q t ih =>
    simp only [List.map_cons, List.sum_cons, List.length_cons]
    rw [ih]
    push_cast
    ring

/-- The closed form of the residual sum of squares around the centered
sums, for lists of equal non-zero length (so that the means annihilate the
linear terms). -/
theorem residualSS_closed (x y : List ℚ) (hlen : x.length = y.length)
    (hn : x.length ≠ 0) (a b : ℚ) :
    residualSS x y a b =
      clrSSyy x y - 2 * a * clrSSxy x y + a ^ 2 * clrSSxx x +
        (x.length : ℚ) * (clrMeanY x y - a * clrMeanX x - b) ^ 2 := by
  unfold residualSS
  rw [residual_expand (x.zip y) a b (clrMeanX x) (clrMeanY x y)]
  have hzl : (x.zip y).length = x.length := by
    rw [List.length_zip, hlen, min_self]
  have hy0 : ((x.zip y).map (fun p => p.2 - clrMeanY x y)).sum = 0 := by
    rw [zip_snd_sub_sum x y _ hlen, sum_sub_const]
    unfold clrMeanY
    rw [← hlen]
    field_simp
  have hx0 : ((x.zip y).map (fun p => p.1 - clrMeanX x)).sum = 0 := by
    rw [zip_fst_sub_sum x y _ hlen, sum_sub_const]
    unfold clrMeanX
    field_simp
  rw [hy0, hx0, hzl,
    zip_fst_sq_sum x y _ hlen, zip_snd_sq_sum x y _ hlen]
  unfold clrSSyy clrSSxy clrSSxx
  ring

/-- **C7 (counterexample).**  On `x = [0, 3]`, `y = [0, 1]` the OLS slope is
`1/3`, but `_calculate_linear_regression` returns the 6-decimal rounding
`0.333333 ≠ 1/3`; the returned pair is strictly beaten (in residual sum of
squares) by the true OLS pair, so the returned slope and intercept are not
the ordinary-least-squares coefficients. -/
theorem regression_slope_not_exact_ols :
    ([0, 3] : List ℚ).length = ([0, 1] : List ℚ).length ∧
    ¬allEqQ [0, 3] ∧
    olsSlope [0, 3] [0, 1] = 1 / 3 ∧
    (calculate_linear_regression [0, 3] [0, 1]).slope = 333333 / 1000000 ∧
    (calculate_linear_regression [0, 3] [0, 1]).slope ≠ olsSlope [0, 3] [0, 1] ∧
    residualSS [0, 3] [0, 1] (olsSlope [0, 3] [0, 1])
        (olsIntercept [0, 3] [0, 1]) <
      residualSS [0, 3] [0, 1] (calculate_linear_regression [0, 3] [0, 1]).slope
        (calculate_linear_regression [0, 3] [0, 1]).intercept :=
  ⟨rfl, by decide, by decide, by decide, by decide, by decide⟩

/-- **C7 (amended).**  For equal-length lists, `r_squared` lies in `[0, 1]`;
and when the x-values are not all equal, the returned slope and intercept
are the ordinary-least-squares coefficients *rounded to 6 and 4 decimal
places respectively*: the unrounded pair minimizes the residual sum of
squares over all affine models. -/
theorem regression_r2_range_and_rounded_ols (x y : List ℚ)
    (hlen : x.length = y.length) :
    (0 ≤ (calculate_linear_regression x y).r_squared ∧
      (calculate_linear_regression x y).r_squared ≤ 1) ∧
    (¬allEqQ x →
      (calculate_linear_regression x y).slope = pyRound (olsSlope x y) 6 ∧
      (calculate_linear_regression x y).intercept =
        pyRound (olsIntercept x y) 4 ∧
      ∀ a b : ℚ, residualSS x y (olsSlope x y) (olsIntercept x y) ≤
        residualSS x y a b) := by
  constructor
  · -- r_squared ∈ [0, 1] on every branch
    by_cases h2 : x.length < 2
    · have hr : calculate_linear_regression x y = ⟨0, 0, 0⟩ := by
        unfold calculate_linear_regression
        rw [if_pos h2]
      rw [hr]
      norm_num
    · have hr : (calculate_linear_regression x y).r_squared =
          pyRound (if clrSSyy x y = 0 then (if clrSSxy x y = 0 then (1 : ℚ) else 0)
            else (if 0 < clrSSxx x then
              clrSSxy x y ^ 2 / (clrSSxx x * clrSSyy x y) else 0)) 4 := by
        unfold calculate_linear_regression
        rw [if_neg h2]
      rw [hr]
      have hin : (0 : ℚ) ≤ (if clrSSyy x y = 0 then (if clrSSxy x y = 0 then (1 : ℚ) else 0)
            else (if 0 < clrSSxx x then
              clrSSxy x y ^ 2 / (clrSSxx x * clrSSyy x y) else 0)) ∧
          (if clrSSyy x y = 0 then (if clrSSxy x y = 0 then (1 : ℚ) else 0)
            else (if 0 < clrSSxx x then
              clrSSxy x y ^ 2 / (clrSSxx x * clrSSyy x y) else 0)) ≤ 1 := by
        split
        · split <;> norm_num
        · rename_i hyy
          split
          · rename_i hxx
            have hyy' : 0 < clrSSyy x y :=
              lt_of_le_of_ne (sum_sq_nonneg y _) (Ne.symm hyy)
            have hcs := clr_cauchy_schwarz x y hlen
            constructor
            · positivity
            · rw [div_le_one (by positivity)]
              exact hcs
          · norm_num
      constructor
      · exact pyRound_nonneg 4 hin.1
      · have h1 : ((1 : ℤ) : ℚ) = (1 : ℚ) := by norm_num
        rw [← h1]
        exact pyRound_le_int 4 1 (by rw [h1]; exact hin.2)
  · intro hne
    have h2 : ¬ x.length < 2 := by
      have := length_two_of_not_allEq x hne
      omega
    have hxx := clrSSxx_pos_of_not_allEq x hne
    have hxx0 : clrSSxx x ≠ 0 := ne_of_gt hxx
    have hn0 : x.length ≠ 0 := by omega
    have hslope : (calculate_linear_regression x y).slope =
        pyRound (olsSlope x y) 6 := by
      unfold calculate_linear_regression
      rw [if_neg h2]
      dsimp only
      rw [if_neg hxx0]
      rfl
    have hint : (calculate_linear_regression x y).intercept =
        pyRound (olsIntercept x y) 4 := by
      unfold calculate_linear_regression
      rw [if_neg h2]
      dsimp only
      rw [if_neg hxx0]
      rfl
    refine ⟨hslope, hint, ?_⟩
    intro a b
    rw [residualSS_closed x y hlen hn0, residualSS_closed x y hlen hn0]
    have hc0 : clrMeanY x y - olsSlope x y * clrMeanX x - olsIntercept x y = 0 := by
      unfold olsIntercept
      ring
    rw [hc0]
    have hs : olsSlope x y * clrSSxx x = clrSSxy x y := by
      unfold olsSlope
      field_simp
    set s := olsSlope x y
    set A := clrSSxx x
    set C := clrSSxy x y
    have hnn : (0 : ℚ) ≤ (x.length : ℚ) := by positivity
    have hC : C = s * A := hs.symm
    rw [hC]
    nlinarith [mul_nonneg hxx.le (sq_nonneg (a - s)),
      mul_nonneg hnn (sq_nonneg (clrMeanY x y - a * clrMeanX x - b))]

/-- **C7 (witness).**  The amended theorem at `x = [0, 1, 2]`,
`y = [2, 0, 1]` (the commit-trend day-index regression shape). -/
theorem regression_r2_range_witness :
    0 ≤ (calculate_linear_regression [0, 1, 2] [2, 0, 1]).r_squared ∧
      (calculate_linear_regression [0, 1, 2] [2, 0, 1]).r_squared ≤ 1 ∧
      (calculate_linear_regression [0, 1, 2] [2, 0, 1]).slope =
        pyRound (olsSlope [0, 1, 2] [2, 0, 1]) 6 :=
  ⟨(regression_r2_range_and_rounded_ols [0, 1, 2] [2, 0, 1] rfl).1.1,
   (regression_r2_range_and_rounded_ols [0, 1, 2] [2, 0, 1] rfl).1.2,
   ((regression_r2_range_and_rounded_ols [0, 1, 2] [2, 0, 1] rfl).2
     (by decide)).1⟩

/-! ## Claim C8: test-file classification -/

theorem suffixLit_iff (pat l : List Char) :
    pat.isSuffixOf l = true ↔ ∃ u, l = u ++ pat := by
  rw [List.isSuffixOf_iff_suffix]
  constructor
  · rintro ⟨u, hu⟩; exact ⟨u, hu.symm⟩
  · rintro ⟨u, hu⟩; exact ⟨u, hu.symm⟩

theorem containsSub_iff (pat : List Char) :
    ∀ s : List Char, containsSub pat s = true ↔ ∃ u t, s = u ++ pat ++ t
  | [] => by
    rw [containsSub]
    constructor
    · intro h
      refine ⟨[], [], ?_⟩
      rw [List.isEmpty_iff.mp h]
      rfl
    · rintro ⟨u, t, h⟩
      have hu : u = [] ∧ pat = [] := by
        cases u <;> cases pat <;> simp_all
      rw [hu.2]
      rfl
  | c :: s => by
    rw [containsSub, Bool.or_eq_true, containsSub_iff pat s,
      List.isPrefixOf_iff_prefix]
    constructor
    · rintro (⟨r, hr⟩ | ⟨u, t, ht⟩)
      · exact ⟨[], r, by rw [← hr]; rfl⟩
      · exact ⟨c :: u, t, by rw [ht]; rfl⟩
    · rintro ⟨u, t, h⟩
      cases u with
      | nil =>
        left
        exact ⟨t, by simpa using h.symm⟩
      | cons c' u' =>
        right
        have h' : s = u' ++ pat ++ t := by
          have := h
          simp only [List.cons_append] at this
          exact (List.cons.injEq c s c' _).mp this |>.2
        exact ⟨u', t, h'⟩

theorem patA_iff (l : List Char) :
    ((['.', 'p', 'y'].isSuffixOf l) &&
        containsSub ['t', 'e', 's', 't', '_'] (l.take (l.length - 3))) = true ↔
      ∃ u t, l = u ++ ['t', 'e', 's', 't', '_'] ++ t ++ ['.', 'p', 'y'] := by
  rw [Bool.and_eq_true, suffixLit_iff, containsSub_iff]
  constructor
  · rintro ⟨⟨v, hv⟩, ⟨u, t, hut⟩⟩
    subst hv
    have hlen : (v ++ ['.', 'p', 'y']).length - 3 = v.length := by simp
    rw [hlen, List.take_left] at hut
    refine ⟨u, t, ?_⟩
    rw [hut]
    try simp [List.append_assoc]
  · rintro ⟨u, t, h⟩
    have hre : l = (u ++ ['t', 'e', 's', 't', '_'] ++ t) ++ ['.', 'p', 'y'] := by
      rw [h]
      try simp [List.append_assoc]
    rw [hre]
    have hlen : ((u ++ ['t', 'e', 's', 't', '_'] ++ t) ++ ['.', 'p', 'y']).length - 3 =
        (u ++ ['t', 'e', 's', 't', '_'] ++ t).length := by
      simp
      omega
    constructor
    · exact ⟨u ++ ['t', 'e', 's', 't', '_'] ++ t, rfl⟩
    · rw [hlen, List.take_left]
      exact ⟨u, t, rfl⟩

/-- The suffix-anchored alternations of the combined test regex that
precede the directory patterns. -/
def testSuffixesA : List String :=
  ["_test.py", "_spec.py", ".test.js", ".test.ts", ".test.jsx", ".test.tsx",
   ".spec.js", ".spec.ts", ".spec.jsx", ".spec.tsx"]

/-- The suffix-anchored alternations that follow the directory patterns. -/
def testSuffixesB : List String :=
  ["test.java", "test.kt", "_test.go", "_test.rb", "_spec.rb"]

/-- The unanchored alternations of the combined test regex. -/
def testInfixes : List String := ["tests/", "test/", "__tests__/"]

/-- Split a character list at `'/'` (for the claim's "path segment"
reading). -/
def splitOnSlash (l : List Char) : List (List Char) :=
  match l with
  | [] => [[]]
  | c :: t =>
    if c = '/' then [] :: splitOnSlash t
    else
      match splitOnSlash t with
      | [] => [[c]]
      | h :: t' => (c :: h) :: t'

/-- Modelled from the claim's words, for refutation only: a counted path is
a test file exactly when its *filename* (the last `'/'`-segment) has one of
the glob forms `test_*.py`, `*_test.py`, `*_spec.py`, `*.test.{js,ts,jsx,tsx}`,
`*.spec.{js,ts,jsx,tsx}`, `*Test.{java,kt}`, `*_test.go`, `*_test.rb`,
`*_spec.rb` (case-insensitively), or one of its *path segments* is exactly
`tests`, `test` or `__tests__`. -/
def claimTestFile (p : String) : Bool :=
  let segs := splitOnSlash (lowerChars p)
  let fname := segs.getLastD []
  ("test_".data.isPrefixOf fname && ".py".data.isSuffixOf fname)
  || testSuffixesA.any (fun s => s.data.isSuffixOf fname)
  || testSuffixesB.any (fun s => s.data.isSuffixOf fname)
  || segs.dropLast.any
      (fun seg => seg = "tests".data || seg = "test".data || seg = "__tests__".data)

/-- **C8 (counterexample).**  `"src/latests/a.py"` has filename `a.py` (no
glob form) and path segments `src`, `latests`, `a.py` (no `tests`/`test`/
`__tests__` segment), so under the claim's pattern reading it is not a test
file; but the source classifies by `re.search`, the substring `tests/` of
`latests/` matches `tests?/.*`, and `compute_test_ratio` counts it as a
test file (`test_files = 1`, `raw = 1.0`). -/
theorem test_classification_segment_reading_fails :
    compute_test_ratio [.str "src/latests/a.py"] = .ok ⟨1, 100, 1, 1⟩ ∧
      isTestPath "src/latests/a.py" = true ∧
      claimTestFile "src/latests/a.py" = false :=
  ⟨by decide, by decide, by decide⟩

theorem countFiles_cons_str (acc : ℕ × ℕ) (p : String) (t : List PVal) :
    countFiles acc (.str p :: t) =
      countFiles (if p ≠ "" then tallyFile acc p else acc) t := by
  have hfs : fileStep acc (.str p) =
      if p ≠ "" then Except.ok (tallyFile acc p) else Except.ok acc := rfl
  rw [show countFiles acc (.str p :: t) =
      (match fileStep acc (.str p) with
        | .error err => .error err
        | .ok acc' => countFiles acc' t) from rfl]
  rw [hfs]
  by_cases hp : p ≠ ""
  · rw [if_pos hp, if_pos hp]
  · rw [if_neg hp, if_neg hp]

/-- The file loop, on a list of plain string paths: the total counts the
paths with a recognized source-code extension, and the test count those
additionally matching the combined test pattern. -/
theorem countFiles_strings :
    ∀ (paths : List String) (acc : ℕ × ℕ),
      countFiles acc (paths.map PVal.str) =
        .ok (acc.1 +
            (paths.filter (fun p => hasCodeExtension p && isTestPath p)).length,
          acc.2 + (paths.filter (fun p => hasCodeExtension p)).length)
  | [], acc => by simp [countFiles]
  | p :: t, acc => by
    rw [List.map_cons, countFiles_cons_str, countFiles_strings t _]
    by_cases hp : p = ""
    · subst hp
      rw [if_neg (by simp)]
      have h1 : hasCodeExtension "" = false := by decide
      have h2 : (hasCodeExtension "" && isTestPath "") = false := by decide
      simp [List.filter_cons, h1, h2]
    · rw [if_pos hp]
      unfold tallyFile
      by_cases hce : hasCodeExtension p <;> by_cases hit : isTestPath p <;>
        simp [List.filter_cons, hce, hit] <;> omega

theorem compute_test_ratio_strings (paths : List String) (hne : paths ≠ []) :
    compute_test_ratio (paths.map PVal.str) =
      (if (paths.filter (fun p => hasCodeExtension p)).length = 0 then
        .ok ⟨0, 0, 0, 0⟩
       else
        .ok ⟨pyRound
            (((paths.filter (fun p => hasCodeExtension p && isTestPath p)).length : ℚ) /
              ((paths.filter (fun p => hasCodeExtension p)).length : ℚ)) 4,
          normalize_score
            (((paths.filter (fun p => hasCodeExtension p && isTestPath p)).length : ℚ) /
              ((paths.filter (fun p => hasCodeExtension p)).length : ℚ))
            0 (3/10) false,
          (paths.filter (fun p => hasCodeExtension p && isTestPath p)).length,
          (paths.filter (fun p => hasCodeExtension p)).length⟩) := by
  unfold compute_test_ratio
  rw [if_neg (by simpa using hne)]
  rw [countFiles_strings paths (0, 0)]
  simp only [Nat.zero_add]

/-- The amended reading of the classifier, as an executable predicate: the
lowercased path contains `test_` ending at least 3 characters before a final
`.py`, or ends with one of the fixed test suffixes, or contains `tests/`,
`test/` or `__tests__/` anywhere as a substring. -/
def amendedTestPath (p : String) : Bool :=
  let l := lowerChars p
  (['.', 'p', 'y'].isSuffixOf l &&
    containsSub ['t', 'e', 's', 't', '_'] (l.take (l.length - 3)))
  || testSuffixesA.any (fun s => s.data.isSuffixOf l)
  || testInfixes.any (fun s => containsSub s.data l)
  || testSuffixesB.any (fun s => s.data.isSuffixOf l)

/-- **C8 (amended).**  `compute_test_ratio` counts only paths with a
recognized source-code extension (a suffix from the fixed allow-list, on the
lowercased path); among those it classifies a path as a test file exactly
when the lowercased path contains `test_` somewhere at distance ≥ 3 from a
final `.py`, or *ends with* one of the fixed test suffixes, or *contains*
`tests/`, `test/` or `__tests__/` anywhere as a substring (`amendedTestPath`)
— `re.search` substring semantics, not filename globs or whole path
segments; the suffix/containment combinators carry the stated existential
decompositions.  On `["src/a.py", "tests/test_a.py"]` it yields
`total_files = 2`, `test_files = 1`, `raw = 0.5`, and `.png`/`.md` files are
excluded from both counts. -/
theorem test_ratio_substring_classification :
    (∀ (paths : List String), paths ≠ [] →
      compute_test_ratio (paths.map PVal.str) =
        (if (paths.filter (fun p => hasCodeExtension p)).length = 0 then
          .ok ⟨0, 0, 0, 0⟩
         else
          .ok ⟨pyRound
              (((paths.filter (fun p => hasCodeExtension p && isTestPath p)).length : ℚ) /
                ((paths.filter (fun p => hasCodeExtension p)).length : ℚ)) 4,
            normalize_score
              (((paths.filter (fun p => hasCodeExtension p && isTestPath p)).length : ℚ) /
                ((paths.filter (fun p => hasCodeExtension p)).length : ℚ))
              0 (3/10) false,
            (paths.filter (fun p => hasCodeExtension p && isTestPath p)).length,
            (paths.filter (fun p => hasCodeExtension p)).length⟩)) ∧
    (∀ p : String, hasCodeExtension p = true ↔
      ∃ e ∈ codeExtensions, ∃ u, lowerChars p = u ++ e.data) ∧
    (∀ p : String, isTestPath p = amendedTestPath p) ∧
    (∀ pat l : List Char, containsSub pat l = true ↔ ∃ u t, l = u ++ pat ++ t) ∧
    (∀ pat l : List Char, pat.isSuffixOf l = true ↔ ∃ u, l = u ++ pat) ∧
    compute_test_ratio [.str "src/a.py", .str "tests/test_a.py"] =
      .ok ⟨1/2, 100, 1, 2⟩ ∧
    compute_test_ratio [.str "a.png", .str "b.md"] = .ok ⟨0, 0, 0, 0⟩ := by
  refine ⟨compute_test_ratio_strings, ?_, ?_,
    fun pat l => containsSub_iff pat l, suffixLit_iff, by decide, by decide⟩
  · intro p
    unfold hasCodeExtension
    rw [List.any_eq_true]
    simp only [suffixLit_iff]
  · intro p
    unfold isTestPath amendedTestPath
    simp only [testSuffixesA, testSuffixesB, testInfixes, List.any_cons,
      List.any_nil, Bool.or_false, Bool.or_assoc]

/-- **C8 (witness).**  The amended theorem applied at concrete inputs:
the classifier agreement at `tests/test_a.py`, a containment decomposition,
and the `.png`-only listing counting nothing. -/
theorem test_ratio_substring_classification_witness :
    isTestPath "tests/test_a.py" = amendedTestPath "tests/test_a.py" ∧
      containsSub ['a'] ['b', 'a'] = true ∧
      compute_test_ratio (["a.png"].map PVal.str) = .ok ⟨0, 0, 0, 0⟩ :=
  ⟨test_ratio_substring_classification.2.2.1 "tests/test_a.py",
   (test_ratio_substring_classification.2.2.2.1 ['a'] ['b', 'a']).mpr
     ⟨['b'], [], rfl⟩,
   by
    rw [test_ratio_substring_classification.1 ["a.png"] (by decide)]
    decide⟩

/-! ## Claim C1: graceful degradation -/

def exOk {ε α : Type} : Except ε α → Bool
  | .ok _ => true
  | .error _ => false

theorem uniformAware_iff (l : List PDt) :
    uniformAware l = true ↔ ∀ a ∈ l, ∀ b ∈ l, a.aware = b.aware := by
  cases l with
  | nil => simp [uniformAware]
  | cons d t =>
    simp only [uniformAware, List.all_eq_true]
    constructor
    · intro h a ha b hb
      have ha' : a.aware = d.aware := by
        rcases List.mem_cons.mp ha with rfl | ha'
        · rfl
        · exact of_decide_eq_true (h a ha')
      have hb' : b.aware = d.aware := by
        rcases List.mem_cons.mp hb with rfl | hb'
        · rfl
        · exact of_decide_eq_true (h b hb')
      rw [ha', hb']
    · intro h x hx
      exact decide_eq_true
        (h x (List.mem_cons_of_mem d hx) d (List.mem_cons_self d t))

theorem insortInstant_perm (x : PDt) :
    ∀ l : List PDt, List.Perm (insortInstant x l) (x :: l)
  | [] => List.Perm.refl _
  | y :: ys => by
    rw [insortInstant]
    split
    · exact ((insortInstant_perm x ys).cons y).trans (List.Perm.swap x y ys)
    · exact List.Perm.refl _

theorem stableSortInstant_perm :
    ∀ l : List PDt, List.Perm (stableSortInstant l) l
  | [] => List.Perm.refl _
  | x :: xs => by
    rw [stableSortInstant]
    exact (insortInstant_perm x (stableSortInstant xs)).trans
      ((stableSortInstant_perm xs).cons x)

theorem headD_mem {α : Type} (l : List α) (d : α) (h : l ≠ []) :
    l.headD d ∈ l := by
  cases l with
  | nil => exact absurd rfl h
  | cons a t => simp

theorem getLastD_mem {α : Type} : ∀ (l : List α) (d : α), l ≠ [] →
    l.getLastD d ∈ l
  | [], _, h => absurd rfl h
  | [a], _, _ => by simp
  | a :: b :: t, d, _ => by
    rw [List.getLastD_cons]
    exact List.mem_cons_of_mem a (getLastD_mem (b :: t) a (by simp))

theorem collectResolutions_ok (now : PDt) :
    ∀ issues : List PVal,
      (∀ i ∈ issues, exOk (issueRecordResolution now i) = true) →
      ∃ ts, collectResolutions now issues = .ok ts
  | [], _ => ⟨[], rfl⟩
  | i :: t, h => by
    have hi := h i (List.mem_cons_self i t)
    obtain ⟨ts, hts⟩ := collectResolutions_ok now t
      (fun j hj => h j (List.mem_cons_of_mem i hj))
    rw [collectResolutions, hts]
    cases hir : issueRecordResolution now i with
    | error e => rw [hir] at hi; exact absurd hi (by simp [exOk])
    | ok r? => exact ⟨_, rfl⟩

theorem countPRs_ok :
    ∀ (prs : List PVal) (acc : ℕ × ℕ × ℕ),
      (∀ pr ∈ prs, ∀ a, exOk (prClassify a pr) = true) →
      ∃ c, countPRs acc prs = .ok c
  | [], acc, _ => ⟨acc, rfl⟩
  | pr :: t, acc, h => by
    have hp := h pr (List.mem_cons_self pr t) acc
    rw [countPRs]
    cases hc : prClassify acc pr with
    | error e => rw [hc] at hp; exact absurd hp (by simp [exOk])
    | ok acc' =>
      exact countPRs_ok t acc' (fun q hq => h q (List.mem_cons_of_mem pr hq))

theorem countFiles_ok :
    ∀ (files : List PVal) (acc : ℕ × ℕ),
      (∀ f ∈ files, ∀ a, exOk (fileStep a f) = true) →
      ∃ c, countFiles acc files = .ok c
  | [], acc, _ => ⟨acc, rfl⟩
  | f :: t, acc, h => by
    have hp := h f (List.mem_cons_self f t) acc
    rw [countFiles]
    cases hc : fileStep acc f with
    | error e => rw [hc] at hp; exact absurd hp (by simp [exOk])
    | ok acc' =>
      exact countFiles_ok t acc' (fun q hq => h q (List.mem_cons_of_mem f hq))

/-- **C1 (counterexample).**  A commit record whose timestamp value is the
integer `5` is truthy, so `_parse_datetime(5)` runs `5 .replace('Z', ...)`
and raises `AttributeError`: `compute_commit_frequency` does not return
normally on every malformed input. -/
theorem commit_frequency_raises_on_int_timestamp :
    compute_commit_frequency ⟨0, Option.none⟩ [.dict [("date", .int 5)]] =
      .error "AttributeError" := by decide

theorem compute_commit_frequency_ok (now : PDt) (commits : List PVal)
    (ds : List PDt) (hok : collectDates now commits = .ok ds)
    (hua : uniformAware ds = true) :
    ∃ r, compute_commit_frequency now commits = .ok r := by
  unfold compute_commit_frequency
  by_cases hc : commits.isEmpty
  · rw [if_pos hc]; exact ⟨_, rfl⟩
  · rw [if_neg hc, hok]
    dsimp only
    by_cases h2 : ds.length < 2
    · rw [if_pos h2]; exact ⟨_, rfl⟩
    · rw [if_neg h2]
      unfold pySortDates
      rw [if_pos hua]
      dsimp only
      have hperm := stableSortInstant_perm ds
      have hlen : (stableSortInstant ds).length = ds.length := hperm.length_eq
      have hne : stableSortInstant ds ≠ [] := by
        intro h
        rw [h] at hlen
        simp at hlen
        omega
      have hmem1 := getLastD_mem (stableSortInstant ds) dummyDt hne
      have hmem2 := headD_mem (stableSortInstant ds) dummyDt hne
      have huaP := (uniformAware_iff ds).mp hua
      have haw : ((stableSortInstant ds).getLastD dummyDt).aware =
          ((stableSortInstant ds).headD dummyDt).aware :=
        huaP _ (hperm.subset hmem1) _ (hperm.subset hmem2)
      unfold pdSub
      rw [if_pos haw]
      exact ⟨_, rfl⟩

theorem compute_issue_resolution_ok (now : PDt) (issues : List PVal)
    (h : ∀ i ∈ issues, exOk (issueRecordResolution now i) = true) :
    ∃ r, compute_issue_resolution now issues = .ok r := by
  unfold compute_issue_resolution
  by_cases hc : issues.isEmpty
  · rw [if_pos hc]; exact ⟨_, rfl⟩
  · rw [if_neg hc]
    obtain ⟨ts, hts⟩ := collectResolutions_ok now issues h
    rw [hts]
    dsimp only
    by_cases ht : ts.isEmpty
    · rw [if_pos ht]; exact ⟨_, rfl⟩
    · rw [if_neg ht]; exact ⟨_, rfl⟩

theorem compute_pr_rejection_ok (prs : List PVal)
    (h : ∀ pr ∈ prs, ∀ a, exOk (prClassify a pr) = true) :
    ∃ r, compute_pr_rejection prs = .ok r := by
  unfold compute_pr_rejection
  by_cases hc : prs.isEmpty
  · rw [if_pos hc]; exact ⟨_, rfl⟩
  · rw [if_neg hc]
    obtain ⟨c, hcc⟩ := countPRs_ok prs (0, 0, 0) h
    obtain ⟨cm, cr, co⟩ := c
    rw [hcc]
    dsimp only
    split
    · exact ⟨_, rfl⟩
    · exact ⟨_, rfl⟩

theorem compute_test_ratio_ok (files : List PVal)
    (h : ∀ f ∈ files, ∀ a, exOk (fileStep a f) = true) :
    ∃ r, compute_test_ratio files = .ok r := by
  unfold compute_test_ratio
  by_cases hc : files.isEmpty
  · rw [if_pos hc]; exact ⟨_, rfl⟩
  · rw [if_neg hc]
    obtain ⟨c, hcc⟩ := countFiles_ok files (0, 0) h
    obtain ⟨ct, cn⟩ := c
    rw [hcc]
    dsimp only
    split
    · exact ⟨_, rfl⟩
    · exact ⟨_, rfl⟩

/-- **C1 (amended).**  Each computer returns normally with a well-formed
result dict whenever its per-record processing does not raise: for
`compute_commit_frequency`, whenever the date-extraction loop succeeds
(every examined timestamp value is falsy, a string, or a datetime; no
non-dict `author`) and the parsed dates do not mix naive and aware; for
`compute_issue_resolution`, `compute_pr_rejection` and `compute_test_ratio`,
whenever every record's iteration succeeds (string-valued `state`/paths,
per-record comparable timestamps).  This covers the empty list, lists of
non-dict entries, records with missing fields, and unparseable *string*
timestamps (which fall back to `now`).  On empty input the defaults are
score 0 (commit frequency, test ratio) or the neutral 50 (issue resolution,
PR rejection) with zero counts; with fewer than two parsed dates
`compute_commit_frequency` returns the fixed fallback `raw 1.0, score 25.0`.
Records with non-string truthy timestamp or state values, or naive/aware
timestamp mixes, can raise (see the counterexample). -/
theorem metric_computers_graceful (now : PDt) :
    (∀ (commits : List PVal) (ds : List PDt),
      collectDates now commits = .ok ds → uniformAware ds = true →
      ∃ r, compute_commit_frequency now commits = .ok r) ∧
    (∀ issues : List PVal,
      (∀ i ∈ issues, exOk (issueRecordResolution now i) = true) →
      ∃ r, compute_issue_resolution now issues = .ok r) ∧
    (∀ prs : List PVal,
      (∀ pr ∈ prs, ∀ a, exOk (prClassify a pr) = true) →
      ∃ r, compute_pr_rejection prs = .ok r) ∧
    (∀ files : List PVal,
      (∀ f ∈ files, ∀ a, exOk (fileStep a f) = true) →
      ∃ r, compute_test_ratio files = .ok r) ∧
    compute_commit_frequency now [] = .ok ⟨0, 0, 0, Option.none⟩ ∧
    compute_issue_resolution now [] = .ok ⟨0, 50, 0, 0⟩ ∧
    compute_pr_rejection [] = .ok ⟨0, 50, 0, 0, Option.none, 0⟩ ∧
    compute_test_ratio [] = .ok ⟨0, 0, 0, 0⟩ ∧
    (∀ (commits : List PVal) (ds : List PDt),
      collectDates now commits = .ok ds → ds.length < 2 → commits ≠ [] →
      compute_commit_frequency now commits =
        .ok ⟨1, 25, commits.length, Option.none⟩) := by
  refine ⟨compute_commit_frequency_ok now, compute_issue_resolution_ok now,
    compute_pr_rejection_ok, compute_test_ratio_ok, rfl, rfl, rfl, rfl, ?_⟩
  intro commits ds hok h2 hne
  unfold compute_commit_frequency
  rw [if_neg (by simpa using hne), hok]
  dsimp only
  rw [if_pos h2]

/-- **C1 (witness).**  The graceful path applied at a concrete commit list
with one parseable and one unparseable string timestamp (the latter falls
back to `now = epoch`), and at a concrete issue list with a non-dict entry
and a record with missing fields. -/
theorem metric_computers_graceful_witness :
    (∃ r, compute_commit_frequency ⟨0, Option.none⟩
      [.dict [("date", .str "2024-01-01")], .dict [("date", .str "garbage")]] =
        .ok r) ∧
    (∃ r, compute_issue_resolution ⟨0, Option.none⟩
      [.int 7, .dict [("state", .str "closed")]] = .ok r) :=
  ⟨(metric_computers_graceful ⟨0, Option.none⟩).1 _
      [⟨(19723 : ℚ) * 86400, Option.none⟩, ⟨0, Option.none⟩]
      (by decide) (by decide),
   (metric_computers_graceful ⟨0, Option.none⟩).2.1 _ (by decide)⟩

theorem insortInstant_pairwise (x : PDt) :
    ∀ l : List PDt, l.Pairwise (fun a b => a.instant ≤ b.instant) →
      (insortInstant x l).Pairwise (fun a b => a.instant ≤ b.instant)
  | [], _ => List.pairwise_singleton _ _
  | y :: ys, h => by
    rw [insortInstant]
    obtain ⟨hy, hys⟩ := List.pairwise_cons.mp h
    split
    · rename_i hlt
      rw [List.pairwise_cons]
      refine ⟨?_, insortInstant_pairwise x ys hys⟩
      intro z hz
      rcases List.mem_cons.mp ((insortInstant_perm x ys).mem_iff.mp hz) with rfl | hz'
      · exact le_of_lt hlt
      · exact hy z hz'
    · rename_i hnlt
      rw [List.pairwise_cons]
      refine ⟨?_, h⟩
      intro z hz
      rcases List.mem_cons.mp hz with rfl | hz'
      · exact not_lt.mp hnlt
      · exact le_trans (not_lt.mp hnlt) (hy z hz')

theorem stableSortInstant_pairwise :
    ∀ l : List PDt,
      (stableSortInstant l).Pairwise (fun a b => a.instant ≤ b.instant)
  | [] => List.Pairwise.nil
  | x :: xs => by
    rw [stableSortInstant]
    exact insortInstant_pairwise x _ (stableSortInstant_pairwise xs)

theorem pairwise_headD_le_getLastD :
    ∀ l : List PDt, l ≠ [] →
      l.Pairwise (fun a b => a.instant ≤ b.instant) →
      (l.headD dummyDt).instant ≤ (l.getLastD dummyDt).instant
  | [], h, _ => absurd rfl h
  | [_], _, _ => le_refl _
  | a :: b :: t, _, h => by
    have hmem : (b :: t).getLastD a ∈ b :: t := getLastD_mem _ _ (by simp)
    have := (List.pairwise_cons.mp h).1 _ hmem
    simpa [List.getLastD_cons] using this

theorem collectDates_append_emptyDict (now : PDt) :
    ∀ commits : List PVal,
      collectDates now (commits ++ [.dict []]) = collectDates now commits
  | [] => rfl
  | c :: t => by
    simp only [List.cons_append, collectDates, List.append_eq]
    rw [collectDates_append_emptyDict now t]

/-- The two-commit list (span 30000 days) used for the C10 counterexample
and witness. -/
def cfC10 : List PVal :=
  [.dict [("date", .str "1901-01-01")], .dict [("date", .str "1983-02-20")]]

/-- **C10 (counterexample).**  Appending a record with no recognizable
timestamp does *not* strictly increase the returned `raw` frequency: on two
commits spanning 30000 days, `raw = round(2/30000, 4) = 0.0001`, and after
appending `{}` it is `round(3/30000, 4) = 0.0001` — unchanged, even though
`total_commits` goes from 2 to 3.  The rounding to 4 decimal places defeats
the strict increase. -/
theorem commit_frequency_append_raw_unchanged :
    (compute_commit_frequency ⟨0, Option.none⟩ cfC10).map CFResult.raw =
      .ok (1/10000) ∧
    (compute_commit_frequency ⟨0, Option.none⟩
        (cfC10 ++ [.dict []])).map CFResult.raw = .ok (1/10000) ∧
    (compute_commit_frequency ⟨0, Option.none⟩ cfC10).map
        CFResult.total_commits = .ok 2 ∧
    (compute_commit_frequency ⟨0, Option.none⟩
        (cfC10 ++ [.dict []])).map CFResult.total_commits = .ok 3 := by
  decide

/-- **C10 (amended).**  On the fully-computed branch (a time span is
reported), `compute_commit_frequency` does compute `raw` as the *total
number of input records* — parseable or not — divided by the span of the
parsed dates, but *rounded to 4 decimal places*; the span is positive.
Appending a record with no recognizable timestamp keeps the span, raises the
record count by one, strictly increases the *unrounded* frequency, and never
decreases the returned rounded `raw` — but need not strictly increase it
(see the counterexample), so the claim's final assertion fails. -/
theorem commit_frequency_counts_all_records (now : PDt) (commits : List PVal)
    (r : CFResult) (span : ℤ)
    (hok : compute_commit_frequency now commits = .ok r)
    (hspan : r.time_span_days = some span) :
    0 < span ∧
    r.total_commits = commits.length ∧
    r.raw = pyRound ((commits.length : ℚ) / (span : ℚ)) 4 ∧
    ∃ r', compute_commit_frequency now (commits ++ [PVal.dict []]) = .ok r' ∧
      r'.time_span_days = some span ∧
      r'.total_commits = commits.length + 1 ∧
      r'.raw = pyRound (((commits.length : ℚ) + 1) / (span : ℚ)) 4 ∧
      (commits.length : ℚ) / (span : ℚ) <
        ((commits.length : ℚ) + 1) / (span : ℚ) ∧
      r.raw ≤ r'.raw := by
  by_cases hne : commits.isEmpty = true
  · unfold compute_commit_frequency at hok
    rw [if_pos hne] at hok
    injection hok with h
    subst h
    simp at hspan
  · unfold compute_commit_frequency at hok
    rw [if_neg hne] at hok
    cases hcd : collectDates now commits with
    | error e => rw [hcd] at hok; exact Except.noConfusion hok
    | ok ds =>
      rw [hcd] at hok
      dsimp only at hok
      by_cases h2 : ds.length < 2
      · rw [if_pos h2] at hok
        injection hok with h
        subst h
        simp at hspan
      · rw [if_neg h2] at hok
        cases hs : pySortDates ds with
        | error e => rw [hs] at hok; exact Except.noConfusion hok
        | ok sorted =>
          rw [hs] at hok
          dsimp only at hok
          cases hd : pdSub (sorted.getLastD dummyDt) (sorted.headD dummyDt) with
          | error e => rw [hd] at hok; exact Except.noConfusion hok
          | ok diff =>
            rw [hd] at hok
            dsimp only at hok
            injection hok with h
            subst h
            dsimp only at hspan
            injection hspan with hsp
            subst hsp
            -- sortedness facts
            have hsort : sorted = stableSortInstant ds := by
              unfold pySortDates at hs
              split at hs
              · injection hs with h; exact h.symm
              · exact Except.noConfusion hs
            subst hsort
            have hpair := stableSortInstant_pairwise ds
            have hlen : (stableSortInstant ds).length = ds.length :=
              (stableSortInstant_perm ds).length_eq
            have hsne : stableSortInstant ds ≠ [] := by
              intro hz
              rw [hz] at hlen
              simp at hlen
              omega
            have hle := pairwise_headD_le_getLastD _ hsne hpair
            have hdiff : ((stableSortInstant ds).getLastD dummyDt).instant -
                ((stableSortInstant ds).headD dummyDt).instant = diff := by
              unfold pdSub at hd
              split at hd
              · injection hd
              · exact Except.noConfusion hd
            have hdnn : 0 ≤ diff := by rw [← hdiff]; linarith
            have htd : 0 ≤ tdDays diff := by
              unfold tdDays
              exact Int.floor_nonneg.mpr (div_nonneg hdnn (by norm_num))
            have hspanpos : 0 < (if tdDays diff = 0 then 1 else tdDays diff) := by
              split
              · norm_num
              · omega
            have hsq : (0 : ℚ) < ((if tdDays diff = 0 then 1 else tdDays diff : ℤ) : ℚ) := by
              exact_mod_cast hspanpos
            have hstrict : (commits.length : ℚ) /
                ((if tdDays diff = 0 then 1 else tdDays diff : ℤ) : ℚ) <
                ((commits.length : ℚ) + 1) /
                ((if tdDays diff = 0 then 1 else tdDays diff : ℤ) : ℚ) := by
              rw [div_lt_div_iff₀ hsq hsq]
              nlinarith
            refine ⟨hspanpos, rfl, rfl, ?_⟩
            have hlen1 : (commits ++ [PVal.dict []]).length = commits.length + 1 := by
              simp
            refine ⟨⟨pyRound (((commits.length : ℚ) + 1) /
                ((if tdDays diff = 0 then 1 else tdDays diff : ℤ) : ℚ)) 4,
                normalize_score (((commits.length : ℚ) + 1) /
                  ((if tdDays diff = 0 then 1 else tdDays diff : ℤ) : ℚ)) 0 5 false,
                commits.length + 1,
                some (if tdDays diff = 0 then 1 else tdDays diff)⟩,
              ?_, rfl, rfl, rfl, hstrict, pyRound_mono 4 (le_of_lt hstrict)⟩
            unfold compute_commit_frequency
            rw [if_neg (by simp : ¬(commits ++ [PVal.dict []]).isEmpty = true)]
            rw [collectDates_append_emptyDict now commits, hcd]
            dsimp only
            rw [if_neg h2, hs]
            dsimp only
            rw [hd]
            dsimp only
            rw [hlen1]
            push_cast
            rfl

/-- **C10 (witness).**  The amended theorem applied at the concrete span-30000
commit list: span 30000 > 0, `raw = round(2/30000, 4)`, and appending `{}`
yields `raw = round(3/30000, 4)` with the unrounded frequency strictly larger
and the rounded one no smaller. -/
theorem commit_frequency_counts_all_records_witness :
    0 < (30000 : ℤ) ∧
    (CFResult.mk (1/10000) 0 2 (some 30000)).total_commits = cfC10.length ∧
    (CFResult.mk (1/10000) 0 2 (some 30000)).raw =
      pyRound ((cfC10.length : ℚ) / ((30000 : ℤ) : ℚ)) 4 ∧
    ∃ r', compute_commit_frequency ⟨0, Option.none⟩
        (cfC10 ++ [PVal.dict []]) = .ok r' ∧
      r'.time_span_days = some 30000 ∧
      r'.total_commits = cfC10.length + 1 ∧
      r'.raw = pyRound (((cfC10.length : ℚ) + 1) / ((30000 : ℤ) : ℚ)) 4 ∧
      (cfC10.length : ℚ) / ((30000 : ℤ) : ℚ) <
        ((cfC10.length : ℚ) + 1) / ((30000 : ℤ) : ℚ) ∧
      (CFResult.mk (1/10000) 0 2 (some 30000)).raw ≤ r'.raw :=
  commit_frequency_counts_all_records ⟨0, Option.none⟩ cfC10
    ⟨1/10000, 0, 2, some 30000⟩ 30000 (by decide) rfl

theorem dayRangeAux_eq : ∀ (n : ℕ) (cur : ℤ),
    dayRangeAux cur n = (List.range n).map (fun i : ℕ => cur + (i : ℤ))
  | 0, _ => rfl
  | n + 1, cur => by
    rw [dayRangeAux, dayRangeAux_eq n (cur + 1), List.range_succ_eq_map]
    simp only [List.map_cons, List.map_map, Nat.cast_zero, add_zero]
    congr 1
    apply List.map_congr_left
    intro i _
    simp only [Function.comp_apply]
    push_cast
    ring

theorem mem_dayRange {lo hi x : ℤ} :
    x ∈ dayRange lo hi ↔ lo ≤ x ∧ x ≤ hi := by
  unfold dayRange
  rw [dayRangeAux_eq]
  rw [List.mem_map]
  constructor
  · rintro ⟨i, hi', rfl⟩
    rw [List.mem_range] at hi'
    omega
  · rintro ⟨h1, h2⟩
    refine ⟨(x - lo).toNat, ?_, ?_⟩
    · rw [List.mem_range]; omega
    · omega

theorem dayRange_nodup (lo hi : ℤ) : (dayRange lo hi).Nodup := by
  unfold dayRange
  rw [dayRangeAux_eq]
  refine List.Nodup.map ?_ (List.nodup_range _)
  intro a b h
  dsimp only at h
  omega

theorem sum_map_add_nat {α : Type} (R : List α) (f g : α → ℕ) :
    (R.map (fun d => f d + g d)).sum = (R.map f).sum + (R.map g).sum := by
  induction R with
  | nil => simp
  | cons r t ih => simp [ih]; omega

theorem sum_indicator_count (w : ℤ) :
    ∀ R : List ℤ, (R.map (fun d => if d = w then 1 else 0)).sum = R.count w
  | [] => by simp
  | r :: t => by
    by_cases h : r = w
    · subst h
      simp [sum_indicator_count r t, List.count_cons]
      omega
    · simp [h, sum_indicator_count w t, List.count_cons, Ne.symm h]

theorem sum_counts (R : List ℤ) (hnd : R.Nodup) :
    ∀ l : List ℤ, (∀ x ∈ l, x ∈ R) →
      (R.map (fun d => l.count d)).sum = l.length
  | [], _ => by simp
  | w :: ws, hmem => by
    have hw : w ∈ R := hmem w (List.mem_cons_self w ws)
    have hws : ∀ x ∈ ws, x ∈ R :=
      fun x hx => hmem x (List.mem_cons_of_mem w hx)
    have hstep : (R.map (fun d => (w :: ws).count d)).sum =
        (R.map (fun d => ws.count d + (if d = w then 1 else 0))).sum := by
      congr 1
      apply List.map_congr_left
      intro d _
      rw [List.count_cons]
      by_cases hdw : d = w
      · subst hdw
        simp
      · simp [beq_iff_eq, hdw, Ne.symm hdw]
    rw [hstep, sum_map_add_nat, sum_counts R hnd ws hws, sum_indicator_count,
      List.count_eq_one_of_mem hnd hw]
    simp

theorem foldlMin_mem :
    ∀ (t : List PDt) (d : PDt),
      t.foldl (fun acc x => if x.instant < acc.instant then x else acc) d ∈ d :: t
  | [], d => List.mem_cons_self d []
  | x :: xs, d => by
    rw [List.foldl_cons]
    rcases List.mem_cons.mp
        (foldlMin_mem xs (if x.instant < d.instant then x else d)) with h | h
    · rw [h]
      split
      · exact List.mem_cons_of_mem d (List.mem_cons_self x xs)
      · exact List.mem_cons_self d (x :: xs)
    · exact List.mem_cons_of_mem d (List.mem_cons_of_mem x h)

theorem foldlMin_le :
    ∀ (t : List PDt) (d : PDt), ∀ y ∈ d :: t,
      (t.foldl (fun acc x => if x.instant < acc.instant then x else acc)
        d).instant ≤ y.instant
  | [], d, y, hy => by
    rcases List.mem_cons.mp hy with rfl | h
    · exact le_refl _
    · exact absurd h (List.not_mem_nil y)
  | x :: xs, d, y, hy => by
    rw [List.foldl_cons]
    have hd' : (if x.instant < d.instant then x else d).instant ≤ d.instant ∧
        (if x.instant < d.instant then x else d).instant ≤ x.instant := by
      split
      · rename_i h; exact ⟨le_of_lt h, le_refl _⟩
      · rename_i h; exact ⟨le_refl _, not_lt.mp h⟩
    have hself := foldlMin_le xs (if x.instant < d.instant then x else d) _
      (List.mem_cons_self _ xs)
    rcases List.mem_cons.mp hy with rfl | hy'
    · exact le_trans hself hd'.1
    · rcases List.mem_cons.mp hy' with rfl | hy''
      · exact le_trans hself hd'.2
      · exact foldlMin_le xs (if x.instant < d.instant then x else d) y
          (List.mem_cons_of_mem _ hy'')

theorem foldlMax_mem :
    ∀ (t : List PDt) (d : PDt),
      t.foldl (fun acc x => if acc.instant < x.instant then x else acc) d ∈ d :: t
  | [], d => List.mem_cons_self d []
  | x :: xs, d => by
    rw [List.foldl_cons]
    rcases List.mem_cons.mp
        (foldlMax_mem xs (if d.instant < x.instant then x else d)) with h | h
    · rw [h]
      split
      · exact List.mem_cons_of_mem d (List.mem_cons_self x xs)
      · exact List.mem_cons_self d (x :: xs)
    · exact List.mem_cons_of_mem d (List.mem_cons_of_mem x h)

theorem foldlMax_ge :
    ∀ (t : List PDt) (d : PDt), ∀ y ∈ d :: t,
      y.instant ≤ (t.foldl
        (fun acc x => if acc.instant < x.instant then x else acc) d).instant
  | [], d, y, hy => by
    rcases List.mem_cons.mp hy with rfl | h
    · exact le_refl _
    · exact absurd h (List.not_mem_nil y)
  | x :: xs, d, y, hy => by
    rw [List.foldl_cons]
    have hd' : d.instant ≤ (if d.instant < x.instant then x else d).instant ∧
        x.instant ≤ (if d.instant < x.instant then x else d).instant := by
      split
      · rename_i h; exact ⟨le_of_lt h, le_refl _⟩
      · rename_i h; exact ⟨le_refl _, not_lt.mp h⟩
    have hself := foldlMax_ge xs (if d.instant < x.instant then x else d) _
      (List.mem_cons_self _ xs)
    rcases List.mem_cons.mp hy with rfl | hy'
    · exact le_trans hd'.1 hself
    · rcases List.mem_cons.mp hy' with rfl | hy''
      · exact le_trans hd'.2 hself
      · exact foldlMax_ge xs (if d.instant < x.instant then x else d) y
          (List.mem_cons_of_mem _ hy'')

theorem pyMinDates_ok (l : List PDt) (hne : l ≠ [])
    (hua : uniformAware l = true) :
    ∃ m, pyMinDates l = .ok m ∧ m ∈ l ∧ ∀ y ∈ l, m.instant ≤ y.instant := by
  cases l with
  | nil => exact absurd rfl hne
  | cons d t =>
    refine ⟨_, ?_, foldlMin_mem t d, foldlMin_le t d⟩
    unfold pyMinDates
    dsimp only
    rw [if_pos hua]

theorem pyMaxDates_ok (l : List PDt) (hne : l ≠ [])
    (hua : uniformAware l = true) :
    ∃ m, pyMaxDates l = .ok m ∧ m ∈ l ∧ ∀ y ∈ l, y.instant ≤ m.instant := by
  cases l with
  | nil => exact absurd rfl hne
  | cons d t =>
    refine ⟨_, ?_, foldlMax_mem t d, foldlMax_ge t d⟩
    unfold pyMaxDates
    dsimp only
    rw [if_pos hua]

theorem wallDay_mono_of_sameOff {a b : PDt} (hoff : a.off = b.off)
    (h : a.instant ≤ b.instant) : a.wallDay ≤ b.wallDay := by
  have hsec : a.sec ≤ b.sec := by
    unfold PDt.instant at h
    rw [hoff] at h
    linarith
  unfold PDt.wallDay
  exact Int.floor_le_floor
    (div_le_div_of_nonneg_right hsec (by norm_num : (0:ℚ) ≤ 86400))

/-- Two commits with aware timestamps in different UTC offsets, used for the
C6 counterexample: their instants are 19:30 and 20:00 UTC on 2024-01-01, but
their wall-clock dates are 2024-01-02 and 2024-01-01. -/
def ctC6 : List PVal :=
  [.dict [("date", .str "2024-01-02T00:30:00+05:00")],
   .dict [("date", .str "2024-01-01T20:00:00Z")]]

/-- **C6 (counterexample).**  Two commits with parseable timestamps for which
`compute_commit_trend` returns an *empty* `time_series`: the min/max dates are
taken by instant, but the day keys come from wall-clock dates, so with mixed
UTC offsets the start day (from the min-instant commit) can exceed the end day
and the day loop runs zero times.  The counts then sum to 0, not 2, and no
calendar day is represented at all — the gap-free claim fails. -/
theorem commit_trend_time_series_empty_on_mixed_offsets :
    (compute_commit_trend ⟨0, Option.none⟩ ctC6).map CTResult.time_series =
      .ok [] ∧
    (collectDates ⟨0, Option.none⟩ ctC6).map List.length = .ok 2 := by
  decide

/-- **C6 (amended).**  When all parsed dates carry the *same* UTC offset
(in particular all naive, the spec's implicit setting) and at least two
parse, the claim holds: `time_series` is the contiguous ascending day range
from the earliest to the latest wall-clock date (one entry per calendar day,
no gaps, both endpoints attained by parsed dates), each day's count is the
number of parsed dates falling on it (0 for silent days), and the counts sum
to the number of parsed dates.  With mixed offsets the range can be empty
(see the counterexample). -/
theorem commit_trend_gap_free (now : PDt) (commits : List PVal)
    (ds : List PDt)
    (hok : collectDates now commits = .ok ds)
    (h2 : 2 ≤ ds.length)
    (huo : ∀ a ∈ ds, ∀ b ∈ ds, a.off = b.off) :
    ∃ r, compute_commit_trend now commits = .ok r ∧
      ∃ lo hi : ℤ, lo ≤ hi ∧
        (∀ d ∈ ds, lo ≤ d.wallDay ∧ d.wallDay ≤ hi) ∧
        (∃ a ∈ ds, a.wallDay = lo) ∧
        (∃ b ∈ ds, b.wallDay = hi) ∧
        r.time_series.map TSEntry.date =
          (List.range (hi + 1 - lo).toNat).map (fun i : ℕ => lo + (i : ℤ)) ∧
        (∀ e ∈ r.time_series, e.count = (ds.map PDt.wallDay).count e.date) ∧
        (r.time_series.map TSEntry.count).sum = ds.length := by
  have hcne : commits.isEmpty = false := by
    cases commits with
    | nil =>
      rw [show collectDates now [] = (.ok [] : Except String (List PDt))
        from rfl] at hok
      injection hok with h
      rw [← h] at h2
      simp at h2
    | cons c t => rfl
  have hua : uniformAware ds = true :=
    (uniformAware_iff ds).mpr (fun a ha b hb => by
      unfold PDt.aware
      rw [huo a ha b hb])
  have hperm := stableSortInstant_perm ds
  have hsublen : (stableSortInstant ds).length = ds.length := hperm.length_eq
  have hsne : stableSortInstant ds ≠ [] := by
    intro h
    rw [h] at hsublen
    simp at hsublen
    omega
  have huas : uniformAware (stableSortInstant ds) = true :=
    (uniformAware_iff _).mpr (fun a ha b hb =>
      (uniformAware_iff ds).mp hua a (hperm.subset ha) b (hperm.subset hb))
  obtain ⟨mind, hmin, hminmem, hminle⟩ := pyMinDates_ok _ hsne huas
  obtain ⟨maxd, hmax, hmaxmem, hmaxge⟩ := pyMaxDates_ok _ hsne huas
  have hminds : mind ∈ ds := hperm.subset hminmem
  have hmaxds : maxd ∈ ds := hperm.subset hmaxmem
  have hcomp : ∃ r, compute_commit_trend now commits = .ok r ∧
      r.time_series = (dayRange mind.wallDay maxd.wallDay).map
        (fun d => (⟨d, ((stableSortInstant ds).map PDt.wallDay).count d⟩ :
          TSEntry)) := by
    unfold compute_commit_trend
    rw [if_neg (by simp [hcne])]
    rw [hok]
    dsimp only
    rw [if_neg (by omega : ¬ ds.length < 2)]
    unfold pySortDates
    rw [if_pos hua]
    dsimp only
    rw [hmin]
    dsimp only
    rw [hmax]
    dsimp only
    exact ⟨_, rfl, rfl⟩
  obtain ⟨r, hr, hts⟩ := hcomp
  have hb : ∀ d ∈ ds, mind.wallDay ≤ d.wallDay ∧ d.wallDay ≤ maxd.wallDay := by
    intro d hd
    have hds : d ∈ stableSortInstant ds := hperm.symm.subset hd
    exact ⟨wallDay_mono_of_sameOff (huo mind hminds d hd) (hminle d hds),
      wallDay_mono_of_sameOff (huo d hd maxd hmaxds) (hmaxge d hds)⟩
  have hlohi : mind.wallDay ≤ maxd.wallDay := by
    have := hb mind hminds
    omega
  refine ⟨r, hr, mind.wallDay, maxd.wallDay, hlohi, hb,
    ⟨mind, hminds, rfl⟩, ⟨maxd, hmaxds, rfl⟩, ?_, ?_, ?_⟩
  · rw [hts, List.map_map]
    show (dayRange mind.wallDay maxd.wallDay).map (fun d => d) = _
    rw [List.map_id']
    unfold dayRange
    rw [dayRangeAux_eq]
  · intro e he
    rw [hts] at he
    obtain ⟨d, _, rfl⟩ := List.mem_map.mp he
    exact (hperm.map PDt.wallDay).count_eq d
  · rw [hts, List.map_map]
    show ((dayRange mind.wallDay maxd.wallDay).map
      (fun d => ((stableSortInstant ds).map PDt.wallDay).count d)).sum = _
    rw [sum_counts _ (dayRange_nodup _ _) _ ?_]
    · rw [List.length_map, hsublen]
    · intro x hx
      obtain ⟨w, hw, rfl⟩ := List.mem_map.mp hx
      have hwds : w ∈ ds := hperm.subset hw
      exact mem_dayRange.mpr (hb w hwds)

/-- Commit list for the C6 witness: two naive dates two days apart. -/
def ctC6w : List PVal :=
  [.dict [("date", .str "2024-01-01")], .dict [("date", .str "2024-01-03")]]

/-- The dates `collectDates` extracts from `ctC6w`. -/
def dsC6w : List PDt :=
  [⟨(19723 : ℚ) * 86400, Option.none⟩, ⟨(19725 : ℚ) * 86400, Option.none⟩]

/-- **C6 (witness).**  The amended theorem applied at two naive commits on
2024-01-01 and 2024-01-03: the time series covers the three days 19723–19725
contiguously and its counts sum to 2. -/
theorem commit_trend_gap_free_witness :
    ∃ r, compute_commit_trend ⟨0, Option.none⟩ ctC6w = .ok r ∧
      ∃ lo hi : ℤ, lo ≤ hi ∧
        (∀ d ∈ dsC6w, lo ≤ d.wallDay ∧ d.wallDay ≤ hi) ∧
        (∃ a ∈ dsC6w, a.wallDay = lo) ∧
        (∃ b ∈ dsC6w, b.wallDay = hi) ∧
        r.time_series.map TSEntry.date =
          (List.range (hi + 1 - lo).toNat).map (fun i : ℕ => lo + (i : ℤ)) ∧
        (∀ e ∈ r.time_series, e.count = (dsC6w.map PDt.wallDay).count e.date) ∧
        (r.time_series.map TSEntry.count).sum = dsC6w.length :=
  commit_trend_gap_free ⟨0, Option.none⟩ ctC6w dsC6w
    (by decide) (by decide) (by decide)
